import Mathlib

/-!
Verification development for the slang SystemVerilog front-end core
(repository masc-ucsc/slang, excerpted sources).

Each section shallowly embeds one part of the C++ source:

* `SlangTypes` — `Type.cpp` (`Type::isMatching`, `Type::isEquivalent`,
  `isSameEnum` and the query helpers they rely on).
* `SlangSM` — `SourceManager.cpp` (buffer entries, line directives,
  `isBeforeInCompilationUnit`).
* `SlangSV` — the four-state value semantics of the constant evaluator
  (the `SVInt` sources are not part of the excerpt; those definitions are
  modelled from the specification and the repository's own eval tests).
* `SlangPrinter` — `SyntaxPrinter.cpp`.
* `SlangSubr` — `SubroutineSymbols.cpp` (out-of-block method construction).

Machine integers from the source are modelled as `Nat`/`Int`; the sources
involved never rely on wrap-around for the quantities modelled here
(buffer counts, line numbers, bit widths), so no explicit modulus is
needed except where noted.
-/

namespace SlangTypes

/-- `ConstantRange` from the slang sources: an inclusive `[left:right]`
range with arbitrary direction. -/
structure CRange where
  left : Int
  right : Int
deriving DecidableEq, Repr

/-- `ConstantRange::width()`: `abs(left - right) + 1`. -/
def CRange.width (r : CRange) : Nat := (r.left - r.right).natAbs + 1

/-- `ScalarType::Kind` (bit/logic/reg). -/
inductive ScalarKind where
  | bit
  | logic
  | reg
deriving DecidableEq, Repr

/-- `PredefinedIntegerType::Kind`. -/
inductive PredefKind where
  | byte
  | shortInt
  | int
  | longInt
  | integer
  | time
deriving DecidableEq, Repr

/-- `FloatingType::Kind`. -/
inductive FloatKind where
  | real
  | shortReal
  | realTime
deriving DecidableEq, Repr

/-- An enum member: its name and its constant value.  `getValue()` produces
a `ConstantValue`; a bad (error) value is modelled as `none`, a good
two-state integer value as `some i` (enum values with unknown bits are
rejected during elaboration). -/
structure EnumVal where
  name : String
  val : Option Int
deriving DecidableEq, Repr

/-- Kinds of types that `isMatching`/`isEquivalent` treat opaquely: the
shortcut on object identity / shared syntax is their only way to match. -/
inductive OtherKind where
  | unpackedStructT
  | unpackedUnionT
  | classT
  | stringT
  | chandleT
  | eventT
  | voidT
  | nullT
  | errorT
deriving DecidableEq, Repr

mutual
/-- A type object in the compilation arena.  `ptr` models the object's
address (`l == r` in the C++ compares addresses); `stx` models
`getSyntax()` (`none` when no syntax node is recorded, `some n` the address
of the recorded syntax node); `view` is the structural content.

The model represents types in canonical form: `getCanonicalType()` (which
only resolves `TypeAlias` chains) is the identity here, so the
`l = &getCanonicalType()` preludes of the C++ functions are implicit. -/
inductive TypeObj where
  | obj (ptr : Nat) (stx : Option Nat) (view : TyView)
deriving DecidableEq, Repr

/-- The structural content of a (canonical) type, mirroring the `SymbolKind`
variants that `Type.cpp` inspects.  Integral attributes of packed arrays
and enums are derived from their element/base type, as the corresponding
`IntegralType` constructors do. -/
inductive TyView where
  | scalar (sk : ScalarKind) (signed : Bool)
  | predef (ik : PredefKind) (signed : Bool)
  | floating (fk : FloatKind)
  | enumT (base : TypeObj) (vals : List EnumVal) (parentCU : Bool)
  | packedArray (elem : TypeObj) (rng : CRange)
  | packedStructT (signed : Bool) (fourState : Bool) (width : Nat)
  | packedUnionT (signed : Bool) (fourState : Bool) (width : Nat)
  | fixedUnpacked (elem : TypeObj) (rng : CRange)
  | dynArray (elem : TypeObj)
  | assoc (elem : TypeObj) (idx : TypeObj)
  | assocWild (elem : TypeObj)
  | queue (elem : TypeObj) (maxBound : Nat)
  | virtualIface (iface : Nat) (modport : Option Nat)
  | other (k : OtherKind)
deriving DecidableEq, Repr
end

namespace TypeObj

/-- Object address. -/
def ptr : TypeObj → Nat
  | .obj p _ _ => p

/-- Recorded syntax-node address (`getSyntax()`). -/
def stx : TypeObj → Option Nat
  | .obj _ s _ => s

/-- Structural content. -/
def view : TypeObj → TyView
  | .obj _ _ v => v

end TypeObj

mutual
/-- Size measure used to justify termination of the mutually recursive
type-relation functions. -/
def TypeObj.osz : TypeObj → Nat
  | .obj _ _ v => v.vsz + 1

/-- Size measure on views. -/
def TyView.vsz : TyView → Nat
  | .scalar _ _ => 1
  | .predef _ _ => 1
  | .floating _ => 1
  | .enumT b _ _ => b.osz + 1
  | .packedArray e _ => e.osz + 1
  | .packedStructT _ _ _ => 1
  | .packedUnionT _ _ _ => 1
  | .fixedUnpacked e _ => e.osz + 1
  | .dynArray e => e.osz + 1
  | .assoc e i => e.osz + i.osz + 1
  | .assocWild e => e.osz + 1
  | .queue e _ => e.osz + 1
  | .virtualIface _ _ => 1
  | .other _ => 1
end

theorem TypeObj.osz_pos (t : TypeObj) : 0 < t.osz := by
  cases t with
  | obj p s v => simp [TypeObj.osz]

theorem TypeObj.view_vsz_lt (p : Nat) (s : Option Nat) (v : TyView) :
    v.vsz < (TypeObj.obj p s v).osz := by
  simp [TypeObj.osz]

mutual
/-- `IntegralType::isKind` restricted to views: scalar, predefined integer,
enum, packed array, packed struct, packed union. -/
def TyView.isIntegralV : TyView → Bool
  | .scalar _ _ => true
  | .predef _ _ => true
  | .enumT _ _ _ => true
  | .packedArray _ _ => true
  | .packedStructT _ _ _ => true
  | .packedUnionT _ _ _ => true
  | _ => false

/-- `IntegralType::isSigned` for each integral view.  Packed arrays and
enums take it from their element/base type, as their constructors do. -/
def TyView.isSignedV : TyView → Bool
  | .scalar _ s => s
  | .predef ik s =>
    -- byte/shortint/int/longint/integer default to signed, time to
    -- unsigned; the stored flag is the final signedness.
    (fun _ => s) ik
  | .enumT b _ _ => b.isSignedT
  | .packedArray e _ => e.isSignedT
  | .packedStructT s _ _ => s
  | .packedUnionT s _ _ => s
  | _ => false

/-- Object-level signedness. -/
def TypeObj.isSignedT : TypeObj → Bool
  | .obj _ _ v => v.isSignedV
end

mutual
/-- `IntegralType::isFourState` for each integral view. -/
def TyView.isFourStateV : TyView → Bool
  | .scalar sk _ =>
    match sk with
    | .bit => false
    | .logic => true
    | .reg => true
  | .predef ik _ =>
    match ik with
    | .integer => true
    | .time => true
    | _ => false
  | .enumT b _ _ => b.isFourStateT
  | .packedArray e _ => e.isFourStateT
  | .packedStructT _ fs _ => fs
  | .packedUnionT _ fs _ => fs
  | _ => false

/-- Object-level four-stateness. -/
def TypeObj.isFourStateT : TypeObj → Bool
  | .obj _ _ v => v.isFourStateV
end

/-- `PredefinedIntegerType` bit widths. -/
def PredefKind.widthOf : PredefKind → Nat
  | .byte => 8
  | .shortInt => 16
  | .int => 32
  | .longInt => 64
  | .integer => 32
  | .time => 64

mutual
/-- `IntegralType::bitWidth` for each integral view; 0 for non-integral
views (`Type::getBitWidth` returns 0 there, floating types aside). -/
def TyView.bitWidthV : TyView → Nat
  | .scalar _ _ => 1
  | .predef ik _ => ik.widthOf
  | .enumT b _ _ => b.bitWidthT
  | .packedArray e rng => e.bitWidthT * rng.width
  | .packedStructT _ _ w => w
  | .packedUnionT _ _ w => w
  | _ => 0

/-- Object-level bit width. -/
def TypeObj.bitWidthT : TypeObj → Nat
  | .obj _ _ v => v.bitWidthV
end

/-- `IntegralType::getBitVectorRange`.  The `IntegralType` sources are not
part of the excerpt; modelled from the spec's data model: a packed array
reports its declared range, every other integral type reports
`[bitWidth-1 : 0]`. -/
def TyView.bitVectorRangeV (v : TyView) : CRange :=
  match v with
  | .packedArray _ rng => rng
  | _ => ⟨(v.bitWidthV : Int) - 1, 0⟩

/-- `Type::isScalar` on views (the canonical kind is `ScalarType`). -/
def TyView.isScalarV : TyView → Bool
  | .scalar _ _ => true
  | _ => false

/-- `Type::isPredefinedInteger` on views. -/
def TyView.isPredefinedIntegerV : TyView → Bool
  | .predef _ _ => true
  | _ => false

/-- `Type::isSimpleBitVector`: a predefined integer, a scalar, or a packed
array whose element is a scalar. -/
def TyView.isSimpleBitVectorV : TyView → Bool
  | .scalar _ _ => true
  | .predef _ _ => true
  | .packedArray e _ => e.view.isScalarV
  | _ => false

/-- `Type::isPackedArray` restricted to canonical views. -/
def TyView.isPackedArrayV : TyView → Bool
  | .packedArray _ _ => true
  | _ => false

/-- `Type::isArray`: packed, fixed-size unpacked, dynamic, associative or
queue. -/
def TyView.isArrayV : TyView → Bool
  | .packedArray _ _ => true
  | .fixedUnpacked _ _ => true
  | .dynArray _ => true
  | .assoc _ _ => true
  | .assocWild _ => true
  | .queue _ _ => true
  | _ => false

/-- `Type::isUnpackedArray`. -/
def TyView.isUnpackedArrayV : TyView → Bool
  | .fixedUnpacked _ _ => true
  | .dynArray _ => true
  | .assoc _ _ => true
  | .assocWild _ => true
  | .queue _ _ => true
  | _ => false

/-- `Type::isEnum` on views. -/
def TyView.isEnumV : TyView → Bool
  | .enumT _ _ _ => true
  | _ => false

/-- `Type::isFloating` on views. -/
def TyView.isFloatingV : TyView → Bool
  | .floating _ => true
  | _ => false

/-- Object-level `Type::isIntegral`. -/
def TypeObj.isIntegralT (t : TypeObj) : Bool := t.view.isIntegralV

/-- Object-level `Type::isEnum`. -/
def TypeObj.isEnumT (t : TypeObj) : Bool := t.view.isEnumV

/-- The address-or-shared-syntax shortcut at the top of `Type::isMatching`:
`l == r || (l->getSyntax() && l->getSyntax() == r->getSyntax())`. -/
def idShortcut (l r : TypeObj) : Bool :=
  l.ptr = r.ptr ||
    (match l.stx, r.stx with
     | some a, some b => a = b
     | _, _ => false)

/-- The floating-point branch of `Type::isMatching`: real and realtime are
synonyms; every float only matches floats of a synonymous kind. -/
def floatMatch (lf rf : FloatKind) : Bool :=
  (lf = .real || lf = .realTime) && (rf = .real || rf = .realTime)

/-- The value-list walk of `isSameEnum`: members must agree pairwise on
name, both values must be good, and the integer values must be equal; both
lists must end together. -/
def sameEnumVals : List EnumVal → List EnumVal → Bool
  | [], rs => rs.isEmpty
  | _ :: _, [] => false
  | lv :: ls, rv :: rs =>
    lv.name = rv.name &&
      (match lv.val, rv.val with
       | some li, some ri => li = ri
       | _, _ => false) &&
      sameEnumVals ls rs

/-- The attribute comparison of the simple-bit-vector branch of
`Type::isMatching`: signedness, four-stateness and bit-vector range. -/
def sbvAttrsEq (va vb : TyView) : Bool :=
  va.isSignedV = vb.isSignedV && va.isFourStateV = vb.isFourStateV &&
    va.bitVectorRangeV = vb.bitVectorRangeV

theorem TypeObj.view_vsz_lt_osz (t : TypeObj) : t.view.vsz < t.osz := by
  cases t with
  | obj p s v => simp [TypeObj.view, TypeObj.osz]

mutual
/-- `Type::isMatching` ([6.22.1]).  Both arguments are first canonicalized
(identity in this model); then the address / shared-syntax shortcut
applies, and otherwise the structural branches on the two views decide. -/
def isMatching (a b : TypeObj) : Bool :=
  if idShortcut a b then true else matchViews a.view b.view
termination_by a.osz + b.osz + 1
decreasing_by
have h1 := a.view_vsz_lt_osz
have h2 := b.view_vsz_lt_osz
omega

/-- The structural branches of `Type::isMatching`, compiled from the
sequential `if` chain of the C++ into one case split on the pair of views.
The order of the C++ checks (floating, simple-bit-vector, array, enum,
virtual interface) is preserved by the disjointness of the cases:

* floating × floating is only reachable by the floating branch;
* scalar/predefined paired with scalar/predefined/packed-array-of-scalar
  is exactly the simple-bit-vector branch (which excludes the case where
  both sides are packed arrays);
* two packed arrays fall through to the array branch, as do all pairs of
  identical unpacked-array kinds;
* `assoc` and `assocWild` are the same C++ `SymbolKind` (associative array
  with / without an index type), so such a mixed pair passes the array
  branch's kind test and fails on the index-type presence test;
* queue bounds are not compared by the array branch;
* every remaining pair reaches `return false`. -/
def matchViews : TyView → TyView → Bool
  | .floating lf, .floating rf => floatMatch lf rf
  | va@(.scalar _ _), vb@(.scalar _ _) => sbvAttrsEq va vb
  | va@(.scalar _ _), vb@(.predef _ _) => sbvAttrsEq va vb
  | va@(.predef _ _), vb@(.scalar _ _) => sbvAttrsEq va vb
  | va@(.predef _ _), vb@(.predef _ _) => sbvAttrsEq va vb
  | va@(.scalar _ _), vb@(.packedArray re _) =>
    if re.view.isScalarV then sbvAttrsEq va vb else false
  | va@(.predef _ _), vb@(.packedArray re _) =>
    if re.view.isScalarV then sbvAttrsEq va vb else false
  | va@(.packedArray le _), vb@(.scalar _ _) =>
    if le.view.isScalarV then sbvAttrsEq va vb else false
  | va@(.packedArray le _), vb@(.predef _ _) =>
    if le.view.isScalarV then sbvAttrsEq va vb else false
  | .packedArray le lr, .packedArray re rr =>
    isMatching le re && lr = rr
  | .fixedUnpacked le lr, .fixedUnpacked re rr =>
    isMatching le re && lr = rr
  | .dynArray le, .dynArray re => isMatching le re
  | .assoc le li, .assoc re ri => isMatching le re && isMatching li ri
  | .assoc _ _, .assocWild _ => false
  | .assocWild _, .assoc _ _ => false
  | .assocWild le, .assocWild re => isMatching le re
  | .queue le _, .queue re _ => isMatching le re
  | .enumT lb lv lcu, .enumT rb rv rcu =>
    -- `isSameEnum`: both parents must exist and be compilation units,
    -- base types must match, values must agree pairwise.
    lcu && rcu && isMatching lb rb && sameEnumVals lv rv
  | .virtualIface li lm, .virtualIface ri rm => li = ri && lm = rm
  | _, _ => false
termination_by va vb => va.vsz + vb.vsz
decreasing_by all_goals simp [TyView.vsz]; omega
end

/-- `Type::isEquivalent` ([6.22.2]). -/
def isEquivalent (a b : TypeObj) : Bool :=
  if isMatching a b then true
  else if a.isIntegralT && b.isIntegralT && !a.isEnumT && !b.isEnumT then
    -- (c) packed integral types: signedness, four-stateness and bit width.
    a.isSignedT = b.isSignedT && a.isFourStateT = b.isFourStateT &&
      a.bitWidthT = b.bitWidthT
  else
    match a, b with
    -- (d) fixed size unpacked arrays: same range width, equivalent
    -- elements.
    | .obj _ _ (.fixedUnpacked le lr), .obj _ _ (.fixedUnpacked re rr) =>
      lr.width = rr.width && isEquivalent le re
    -- (e) dynamic arrays, associative arrays, queues of the same kind with
    -- equivalent element types; associative arrays additionally need the
    -- same index type (both absent, or both present and equivalent).
    | .obj _ _ (.dynArray le), .obj _ _ (.dynArray re) => isEquivalent le re
    | .obj _ _ (.assoc le li), .obj _ _ (.assoc re ri) =>
      isEquivalent li ri && isEquivalent le re
    | .obj _ _ (.assoc _ _), .obj _ _ (.assocWild _) => false
    | .obj _ _ (.assocWild _), .obj _ _ (.assoc _ _) => false
    | .obj _ _ (.assocWild le), .obj _ _ (.assocWild re) => isEquivalent le re
    | .obj _ _ (.queue le _), .obj _ _ (.queue re _) => isEquivalent le re
    | _, _ => false
termination_by a.osz + b.osz
decreasing_by all_goals simp [TypeObj.osz, TyView.vsz]; omega

/-- Spec clause (d) of the equivalence characterization: both types are
fixed-size unpacked arrays with equivalent element types and ranges of the
same width. -/
def equivFixedClause (a b : TypeObj) : Bool :=
  match a.view, b.view with
  | .fixedUnpacked le lr, .fixedUnpacked re rr =>
    lr.width = rr.width && isEquivalent le re
  | _, _ => false

/-- Spec clause (e) of the equivalence characterization: both types are the
same kind among dynamic array / associative array / queue, with equivalent
element types and, for associative arrays, the same index-type presence
with equivalent index types. -/
def equivDAQClause (a b : TypeObj) : Bool :=
  match a.view, b.view with
  | .dynArray le, .dynArray re => isEquivalent le re
  | .queue le _, .queue re _ => isEquivalent le re
  | .assoc le li, .assoc re ri => isEquivalent le re && isEquivalent li ri
  | .assocWild le, .assocWild re => isEquivalent le re
  | _, _ => false

/-- The characterization of `is_equivalent` exactly as the claim states it
(spec wording): matching, OR integral with the same signedness /
four-stateness / bit width — with no exclusion of enum types — OR the
fixed-size unpacked array clause, OR the dynamic/associative/queue
clause. -/
def equivSpecClaim (a b : TypeObj) : Bool :=
  isMatching a b ||
    (a.isIntegralT && b.isIntegralT &&
      (a.isSignedT = b.isSignedT && a.isFourStateT = b.isFourStateT &&
        a.bitWidthT = b.bitWidthT)) ||
    equivFixedClause a b || equivDAQClause a b

/-- The amended characterization: identical to `equivSpecClaim` except
that the integral clause additionally requires that neither type is an
enum, matching the `!l->isEnum() && !r->isEnum()` test in the source. -/
def equivSpecAmended (a b : TypeObj) : Bool :=
  isMatching a b ||
    (a.isIntegralT && b.isIntegralT && !a.isEnumT && !b.isEnumT &&
      (a.isSignedT = b.isSignedT && a.isFourStateT = b.isFourStateT &&
        a.bitWidthT = b.bitWidthT)) ||
    equivFixedClause a b || equivDAQClause a b

/-- A predefined `int` type object, as interned by a compilation. -/
def exInt : TypeObj := .obj 100 none (.predef .int true)

/-- A second, separately allocated `int` instance. -/
def exInt2 : TypeObj := .obj 101 none (.predef .int true)

/-- An enum type with base `int`, declared in compilation-unit scope. -/
def exEnum : TypeObj := .obj 1 none (.enumT exInt [⟨"A", some 0⟩] true)

theorem idShortcut_symm (a b : TypeObj) : idShortcut a b = idShortcut b a := by
  unfold idShortcut
  cases ha : a.stx <;> cases hb : b.stx <;> simp [eq_comm]

theorem sameEnumVals_symm : ∀ l r : List EnumVal,
    sameEnumVals l r = sameEnumVals r l := by
  intro l
  induction l with
  | nil => intro r; cases r <;> simp [sameEnumVals]
  | cons lv ls ih =>
    intro r
    cases r with
    | nil => simp [sameEnumVals]
    | cons rv rs =>
      simp only [sameEnumVals, ih rs]
      cases hl : lv.val <;> cases hr : rv.val <;>
        simp [eq_comm, Bool.and_comm, Bool.and_assoc, Bool.and_left_comm]

/-- Symmetry of `Type::isMatching`, by strong induction on the combined
size of the two types. -/
theorem isMatching_comm_aux :
    ∀ n, ∀ a b : TypeObj, a.osz + b.osz ≤ n → isMatching a b = isMatching b a := by
  intro n
  induction n using Nat.strong_induction_on with
  | _ n ih =>
  intro a b hn
  rw [isMatching.eq_def, isMatching.eq_def]
  rw [idShortcut_symm]
  cases hs : idShortcut b a with
  | true => simp
  | false =>
  simp only [Bool.false_eq_true, if_false]
  obtain ⟨pa, sa, va⟩ := a
  obtain ⟨pb, sb, vb⟩ := b
  simp only [TypeObj.view]
  simp only [TypeObj.osz] at hn
  clear hs
  cases va <;> cases vb <;>
    (try (simp [matchViews, sbvAttrsEq, floatMatch, eq_comm, Bool.and_comm, Bool.and_assoc,
      Bool.and_left_comm, sameEnumVals_symm]))
  case scalar.packedArray sk sg re rng =>
    cases h : re.view.isScalarV <;>
      simp [matchViews, h, sbvAttrsEq, eq_comm, Bool.and_comm, Bool.and_assoc, Bool.and_left_comm]
  case predef.packedArray ik sg re rng =>
    cases h : re.view.isScalarV <;>
      simp [matchViews, h, sbvAttrsEq, eq_comm, Bool.and_comm, Bool.and_assoc, Bool.and_left_comm]
  case packedArray.scalar le rng sk sg =>
    cases h : le.view.isScalarV <;>
      simp [matchViews, h, sbvAttrsEq, eq_comm, Bool.and_comm, Bool.and_assoc, Bool.and_left_comm]
  case packedArray.predef le rng ik sg =>
    cases h : le.view.isScalarV <;>
      simp [matchViews, h, sbvAttrsEq, eq_comm, Bool.and_comm, Bool.and_assoc, Bool.and_left_comm]
  case packedArray.packedArray le lr re rr =>
    simp only [TyView.vsz] at hn
    rw [ih (le.osz + re.osz) (by omega) le re (Nat.le_refl _)]
  case fixedUnpacked.fixedUnpacked le lr re rr =>
    simp only [TyView.vsz] at hn
    rw [ih (le.osz + re.osz) (by omega) le re (Nat.le_refl _)]
  case dynArray.dynArray le re =>
    simp only [TyView.vsz] at hn
    rw [ih (le.osz + re.osz) (by omega) le re (Nat.le_refl _)]
  case assoc.assoc le li re ri =>
    simp only [TyView.vsz] at hn
    rw [ih (le.osz + re.osz) (by omega) le re (Nat.le_refl _),
       ih (li.osz + ri.osz) (by omega) li ri (Nat.le_refl _)]
  case assocWild.assocWild le re =>
    simp only [TyView.vsz] at hn
    rw [ih (le.osz + re.osz) (by omega) le re (Nat.le_refl _)]
  case queue.queue le lm re rm =>
    simp only [TyView.vsz] at hn
    rw [ih (le.osz + re.osz) (by omega) le re (Nat.le_refl _)]
  case enumT.enumT lb lv lcu rb rv rcu =>
    simp only [TyView.vsz] at hn
    rw [ih (lb.osz + rb.osz) (by omega) lb rb (Nat.le_refl _)]

/-- The scalar type `logic`, as a distinct object. -/
def cxLogic : TypeObj := .obj 1 none (.scalar .logic false)

/-- The packed array `logic [0:0]`. -/
def cxLogicArr : TypeObj :=
  .obj 2 none (.packedArray (.obj 3 none (.scalar .logic false)) ⟨0, 0⟩)

/-- The packed array of packed arrays `logic [0:0][0:0]`. -/
def cxLogicArrArr : TypeObj :=
  .obj 4 none
    (.packedArray (.obj 5 none (.packedArray (.obj 6 none (.scalar .logic false)) ⟨0, 0⟩))
      ⟨0, 0⟩)

theorem sameEnumVals_of_maps :
    ∀ vs1 vs2 : List EnumVal,
      vs1.map EnumVal.name = vs2.map EnumVal.name →
      vs1.map EnumVal.val = vs2.map EnumVal.val →
      (∀ v ∈ vs1, v.val ≠ none) →
      sameEnumVals vs1 vs2 = true := by
  intro vs1
  induction vs1 with
  | nil =>
    intro vs2 hn _ _
    cases vs2 with
    | nil => simp [sameEnumVals]
    | cons _ _ => simp at hn
  | cons v vs ih =>
    intro vs2 hn hv hg
    cases vs2 with
    | nil => simp at hn
    | cons w ws =>
      simp only [List.map_cons, List.cons.injEq] at hn hv
      have hgood := hg v (List.mem_cons_self v vs)
      cases hval : v.val with
      | none => exact absurd hval hgood
      | some i =>
        simp only [sameEnumVals, hn.1, hval, hv.1.symm, hval]
        simp [ih ws hn.2 hv.2 (fun x hx => hg x (List.mem_cons_of_mem v hx))]

/-- C2: `Type::isEquivalent` fails the claim's characterization on an
enum/int pair: an enum with base `int` and `int` itself are both integral
with identical signedness, four-stateness and bit width (so the claimed
disjunction holds), yet `isEquivalent` returns false because the source
excludes enums from the integral clause. -/
theorem C2_counterexample :
    isEquivalent exEnum exInt = false ∧ equivSpecClaim exEnum exInt = true := by
  constructor
  · rw [isEquivalent.eq_def]
    simp [exEnum, exInt, isMatching, idShortcut, matchViews, TypeObj.view, TypeObj.ptr,
      TypeObj.stx, TypeObj.isIntegralT, TypeObj.isEnumT, TyView.isIntegralV, TyView.isEnumV]
  · simp [equivSpecClaim, exEnum, exInt, isMatching, idShortcut, matchViews, TypeObj.view,
      TypeObj.ptr, TypeObj.stx, TypeObj.isIntegralT, TypeObj.isEnumT, TyView.isIntegralV,
      TyView.isEnumV, TypeObj.isSignedT, TypeObj.isFourStateT, TypeObj.bitWidthT,
      TyView.isSignedV, TyView.isFourStateV, TyView.bitWidthV, PredefKind.widthOf,
      equivFixedClause, equivDAQClause]

/-- C2 (amended): for all types `a` and `b`, `Type::isEquivalent a b`
holds if and only if `a` and `b` are matching, or both are integral types
— neither of which is an enum — with the same signedness, four-stateness
and bit width, or both are fixed-size unpacked arrays with equivalent
element types and ranges of the same width, or both are the same kind
among dynamic array / associative array / queue with equivalent element
types (and, for associative arrays, the same index-type presence and
equivalent index types). -/
theorem C2_equivalence_characterization (a b : TypeObj) :
    isEquivalent a b = equivSpecAmended a b := by
  by_cases hm : isMatching a b = true
  · rw [isEquivalent.eq_def]
    simp [hm, equivSpecAmended]
  · obtain ⟨pa, sa, va⟩ := a
    obtain ⟨pb, sb, vb⟩ := b
    rw [isEquivalent.eq_def]
    unfold equivSpecAmended equivFixedClause equivDAQClause
    simp only [Bool.not_eq_true] at hm
    cases va <;> cases vb <;>
      simp [hm, TypeObj.view, TypeObj.isIntegralT, TypeObj.isEnumT, TyView.isIntegralV,
        TyView.isEnumV, Bool.and_comm]

/-- C3: `Type::isMatching` is not transitive, so it is not an equivalence
relation.  The scalar `logic` matches the one-element packed array
`logic [0:0]` (simple-bit-vector branch: same signedness, four-stateness
and bit-vector range), and `logic [0:0]` matches `logic [0:0][0:0]`
(array branch: same ranges, recursively matching elements), but `logic`
does not match `logic [0:0][0:0]`, whose element type is not a scalar. -/
theorem C3_counterexample :
    isMatching cxLogic cxLogicArr = true ∧
      isMatching cxLogicArr cxLogicArrArr = true ∧
      isMatching cxLogic cxLogicArrArr = false := by
  refine ⟨?_, ?_, ?_⟩ <;>
    simp [cxLogic, cxLogicArr, cxLogicArrArr, isMatching, idShortcut, matchViews,
      TypeObj.view, TypeObj.ptr, TypeObj.stx, TyView.isScalarV, sbvAttrsEq,
      TyView.isSignedV, TyView.isFourStateV, TyView.bitVectorRangeV, TyView.bitWidthV,
      TypeObj.isSignedT, TypeObj.isFourStateT, TypeObj.bitWidthT]

/-- C3 (amended): `Type::isMatching` is reflexive and symmetric on all
types; it is not transitive (see the counterexample). -/
theorem C3_matching_refl_symm :
    (∀ a : TypeObj, isMatching a a = true) ∧
      (∀ a b : TypeObj, isMatching a b = isMatching b a) := by
  constructor
  · intro a
    rw [isMatching.eq_def]
    simp [idShortcut]
  · intro a b
    exact isMatching_comm_aux (a.osz + b.osz) a b (Nat.le_refl _)

/-- C10: two distinct enum type objects — regardless of their addresses
and recorded syntax nodes — are matching whenever both are declared
directly in compilation-unit scope, their base types match, and their
value lists agree pairwise on member names and (good) integer constant
values. -/
theorem C10_separate_enum_instantiations_match
    (p1 p2 : Nat) (s1 s2 : Option Nat) (b1 b2 : TypeObj)
    (vs1 vs2 : List EnumVal)
    (hbase : isMatching b1 b2 = true)
    (hnames : vs1.map EnumVal.name = vs2.map EnumVal.name)
    (hvals : vs1.map EnumVal.val = vs2.map EnumVal.val)
    (hgood : ∀ v ∈ vs1, v.val ≠ none) :
    isMatching (.obj p1 s1 (.enumT b1 vs1 true)) (.obj p2 s2 (.enumT b2 vs2 true)) = true := by
  rw [isMatching.eq_def]
  by_cases h : idShortcut (.obj p1 s1 (.enumT b1 vs1 true)) (.obj p2 s2 (.enumT b2 vs2 true))
  · simp [h]
  · simp [h, TypeObj.view, matchViews, hbase,
      sameEnumVals_of_maps vs1 vs2 hnames hvals hgood]

/-- Witness for C10: two concrete single-member enums over separately
allocated `int` base types match. -/
theorem C10_witness :
    isMatching (.obj 21 none (.enumT exInt [⟨"A", some 0⟩] true))
      (.obj 22 none (.enumT exInt2 [⟨"A", some 0⟩] true)) = true := by
  apply C10_separate_enum_instantiations_match
  · simp [exInt, exInt2, isMatching, idShortcut, matchViews, TypeObj.view, TypeObj.ptr,
      TypeObj.stx, sbvAttrsEq, TyView.isSignedV, TyView.isFourStateV, TyView.bitVectorRangeV,
      TyView.bitWidthV, PredefKind.widthOf]
  · rfl
  · rfl
  · simp

end SlangTypes

namespace SlangSM

/-- `SourceLocation`: a packed `(buffer id, byte offset)` pair.  Buffer id
0 is the invalid buffer (`BufferID::valid()` is `id != 0`). -/
structure Loc where
  buf : Nat
  off : Nat
deriving DecidableEq, Repr

/-- `SourceLocation()`: the default, invalid location. -/
def Loc.invalid : Loc := ⟨0, 0⟩

/-- `SourceLocation::valid()`. -/
def Loc.validB (l : Loc) : Bool := l.buf ≠ 0

/-- `SourceManager::LineDirectiveInfo`: remapped file name, raw line of
the directive in the file, line number stated by the directive, and
include level. -/
structure LineDirectiveInfo where
  name : String
  lineInFile : Nat
  lineOfDirective : Nat
  level : Nat
deriving DecidableEq, Repr

/-- The position `std::lower_bound` returns on the directive list: the
first index whose entry's `lineInFile` is not less than `rawLineNumber`.
(`std::lower_bound` computes exactly this as long as the list is sorted by
`lineInFile`, which `addLineDirective` maintains by always appending raw
line numbers in nondecreasing order.) -/
def lowerBoundPos (dirs : List LineDirectiveInfo) (raw : Nat) : Nat :=
  match dirs with
  | [] => 0
  | d :: rest => if d.lineInFile < raw then lowerBoundPos rest raw + 1 else 0

/-- `SourceManager::FileInfo::getPreviousLineDirective`: binary-search the
first directive at-or-after `rawLineNumber`; if it is not the first entry,
return the one right before it (with the source's extra guard when the
search lands at the end); otherwise there is no preceding directive. -/
def getPreviousLineDirective (dirs : List LineDirectiveInfo) (raw : Nat) :
    Option LineDirectiveInfo :=
  if lowerBoundPos dirs raw ≠ 0 then
    if lowerBoundPos dirs raw = dirs.length then
      match dirs.getLast? with
      | some last =>
        if last.lineInFile ≥ raw then none
        else dirs.get? (lowerBoundPos dirs raw - 1)
      | none => none
    else dirs.get? (lowerBoundPos dirs raw - 1)
  else none

/-- The line-directive arithmetic of `SourceManager::getLineNumber`, as a
function of the buffer's directive list and the raw (physical) line number
already computed from the line-offset table: a raw line of 0 (invalid
location) stays 0; with no preceding directive the raw line is returned;
otherwise `lineOfDirective + (rawLine - lineInFile) - 1`. -/
def getLineNumberFromRaw (dirs : List LineDirectiveInfo) (raw : Nat) : Nat :=
  if raw = 0 then 0
  else
    match getPreviousLineDirective dirs raw with
    | none => raw
    | some d => d.lineOfDirective + (raw - d.lineInFile) - 1

/-- The claim's notion of "nearest directive preceding the raw line": the
last directive in the (sorted) list whose own raw line is strictly before
`raw`. -/
def nearestPreceding (dirs : List LineDirectiveInfo) (raw : Nat) :
    Option LineDirectiveInfo :=
  (dirs.filter (fun d => d.lineInFile < raw)).getLast?

/-- Sortedness of a directive list by in-file line, as maintained by
`addLineDirective`. -/
def DirsSorted (dirs : List LineDirectiveInfo) : Prop :=
  dirs.Pairwise (fun a b => a.lineInFile ≤ b.lineInFile)

/-- A buffer entry: either a file buffer (`FileInfo`, with the include
location or an invalid location for a root file) or a macro-expansion
buffer (`ExpansionInfo`). -/
inductive BufferEntry where
  | fileInfo (includedFrom : Loc)
  | expansionInfo (originalLoc : Loc) (exStart : Loc) (exEnd : Loc)
      (isMacroArg : Bool) (macroName : Option String)
deriving DecidableEq, Repr

/-- The `bufferEntries` vector of a `SourceManager`; a buffer's ID is its
index in this list. -/
structure SMState where
  entries : List BufferEntry
deriving Repr

/-- `SourceManager::SourceManager()`: a dummy `FileInfo` entry is added at
index 0 so that valid buffer IDs start at 1. -/
def initSM : SMState := ⟨[.fileInfo Loc.invalid]⟩

/-- The buffer-creating operations: `createBufferEntry` (used by
`assignBuffer`, `openCached`/`readSource`/`readHeader`) and the two
`createExpansionLoc` overloads. -/
inductive SMOp where
  | mkFileBuffer (includedFrom : Loc)
  | mkExpansion (originalLoc exStart exEnd : Loc) (isMacroArg : Bool)
  | mkExpansionNamed (originalLoc exStart exEnd : Loc) (macroName : String)

/-- One buffer creation: `bufferEntries.emplace_back(...)` followed by
`BufferID(bufferEntries.size() - 1, ...)`.  Returns the new state and the
ID assigned to the new buffer. -/
def applyOp (st : SMState) (op : SMOp) : SMState × Nat :=
  match op with
  | .mkFileBuffer inc =>
    (⟨st.entries ++ [.fileInfo inc]⟩, st.entries.length)
  | .mkExpansion o s e arg =>
    (⟨st.entries ++ [.expansionInfo o s e arg none]⟩, st.entries.length)
  | .mkExpansionNamed o s e nm =>
    (⟨st.entries ++ [.expansionInfo o s e false (some nm)]⟩, st.entries.length)

/-- Run a sequence of buffer creations, collecting the assigned IDs in
order. -/
def runOps : SMState → List SMOp → SMState × List Nat
  | st, [] => (st, [])
  | st, op :: ops =>
    let r := applyOp st op
    let rest := runOps r.1 ops
    (rest.1, r.2 :: rest.2)

/-- A concrete directive list for the C4 witness:
`` `line 100 "x.svh" `` on raw line 5 and `` `line 200 "y.svh" `` on raw
line 10. -/
def exDirs : List LineDirectiveInfo :=
  [⟨"x.svh", 5, 100, 0⟩, ⟨"y.svh", 10, 200, 0⟩]

theorem lowerBoundPos_cons (d : LineDirectiveInfo) (ds : List LineDirectiveInfo) (raw : Nat) :
    lowerBoundPos (d :: ds) raw =
      if d.lineInFile < raw then lowerBoundPos ds raw + 1 else 0 := rfl

theorem filter_lt_nil (raw : Nat) (d : LineDirectiveInfo) (ds : List LineDirectiveInfo)
    (hle : ∀ x ∈ ds, d.lineInFile ≤ x.lineInFile) (hd : ¬d.lineInFile < raw) :
    ds.filter (fun x => x.lineInFile < raw) = [] := by
  rw [List.filter_eq_nil_iff]
  intro x hx
  have := hle x hx
  simp only [decide_eq_true_eq]
  omega

theorem prev_cons_of_lb_ne (d : LineDirectiveInfo) (ds : List LineDirectiveInfo) (raw : Nat)
    (hd : d.lineInFile < raw) (hlb : lowerBoundPos ds raw ≠ 0) :
    getPreviousLineDirective (d :: ds) raw = getPreviousLineDirective ds raw := by
  cases ds with
  | nil => simp [lowerBoundPos] at hlb
  | cons d2 ds2 =>
  cases hk : lowerBoundPos (d2 :: ds2) raw with
  | zero => exact absurd hk hlb
  | succ k =>
  have h1 : lowerBoundPos (d :: d2 :: ds2) raw = k + 2 := by
    rw [lowerBoundPos_cons, if_pos hd, hk]
  unfold getPreviousLineDirective
  rw [h1, hk]
  simp only [List.length_cons, List.getLast?_cons_cons, ne_eq, Nat.succ_ne_zero,
    not_false_eq_true, if_true]
  by_cases hlen : k + 1 = ds2.length + 1
  · rw [if_pos (by omega : k + 2 = ds2.length + 1 + 1), if_pos hlen]
    cases (d2 :: ds2).getLast? with
    | none => rfl
    | some last =>
      by_cases hlast : last.lineInFile ≥ raw
      · simp [hlast]
      · simp [hlast]
  · rw [if_neg (by omega : ¬k + 2 = ds2.length + 1 + 1), if_neg hlen]
    simp

theorem nearest_cons_cons (d d2 : LineDirectiveInfo) (ds2 : List LineDirectiveInfo)
    (raw : Nat) (hd2 : d2.lineInFile < raw) :
    nearestPreceding (d :: d2 :: ds2) raw = nearestPreceding (d2 :: ds2) raw := by
  unfold nearestPreceding
  by_cases hd : d.lineInFile < raw
  · rw [List.filter_cons_of_pos (by simpa using hd), List.filter_cons_of_pos (by simpa using hd2),
      List.getLast?_cons_cons]
  · rw [List.filter_cons_of_neg (by simpa using hd)]

/-- The binary search of `getPreviousLineDirective` computes the nearest
preceding directive (the last one whose raw line is strictly before the
query) whenever the directive list is sorted by in-file line. -/
theorem prev_eq_nearest (dirs : List LineDirectiveInfo) (raw : Nat)
    (hs : DirsSorted dirs) :
    getPreviousLineDirective dirs raw = nearestPreceding dirs raw := by
  induction dirs with
  | nil => simp [getPreviousLineDirective, nearestPreceding, lowerBoundPos]
  | cons d ds ih =>
    rw [DirsSorted, List.pairwise_cons] at hs
    by_cases hd : d.lineInFile < raw
    · cases hlb : lowerBoundPos ds raw with
      | zero =>
        cases ds with
        | nil =>
          simp [getPreviousLineDirective, nearestPreceding, lowerBoundPos, hd]
        | cons d2 ds2 =>
          have hd2 : ¬d2.lineInFile < raw := by
            by_contra hc
            simp [lowerBoundPos, hc] at hlb
          have hfil : (d2 :: ds2).filter (fun x => x.lineInFile < raw) = [] := by
            rw [List.filter_cons_of_neg (by simpa using hd2)]
            exact filter_lt_nil raw d2 ds2 (List.pairwise_cons.mp hs.2).1 hd2
          have h1 : lowerBoundPos (d :: d2 :: ds2) raw = 1 := by
            rw [lowerBoundPos_cons, if_pos hd, lowerBoundPos_cons, if_neg hd2]
          unfold getPreviousLineDirective nearestPreceding
          rw [h1, List.filter_cons_of_pos (by simpa using hd), hfil]
          simp
      | succ k =>
        have hds2 : ds ≠ [] := by
          intro h
          subst h
          simp [lowerBoundPos] at hlb
        obtain ⟨d2, ds2, rfl⟩ := List.exists_cons_of_ne_nil hds2
        have hd2 : d2.lineInFile < raw := by
          by_contra hc
          rw [lowerBoundPos_cons, if_neg hc] at hlb
          exact Nat.succ_ne_zero k hlb.symm
        rw [prev_cons_of_lb_ne d _ raw hd (by rw [hlb]; exact Nat.succ_ne_zero k),
          nearest_cons_cons d d2 ds2 raw hd2]
        exact ih hs.2
    · have h0 : lowerBoundPos (d :: ds) raw = 0 := by
        rw [lowerBoundPos_cons, if_neg hd]
      have hfil := filter_lt_nil raw d ds hs.1 hd
      unfold getPreviousLineDirective nearestPreceding
      rw [h0, List.filter_cons_of_neg (by simpa using hd), hfil]
      simp

/-- C4: for any raw line number of a real file location (at least 1) in a
buffer whose `line`-directive list is kept sorted by in-file line,
`getLineNumber` returns `directive.lineOfDirective +
(rawLine - directive.lineInFile) - 1` for the nearest directive strictly
preceding the raw line (found by binary search), and the raw line itself
when no directive precedes it. -/
theorem C4_line_number_remap (dirs : List LineDirectiveInfo) (raw : Nat)
    (hs : DirsSorted dirs) (hraw : 1 ≤ raw) :
    getLineNumberFromRaw dirs raw =
      match nearestPreceding dirs raw with
      | none => raw
      | some d => d.lineOfDirective + (raw - d.lineInFile) - 1 := by
  unfold getLineNumberFromRaw
  rw [if_neg (by omega : ¬raw = 0), prev_eq_nearest dirs raw hs]

/-- Witness for C4: with directives `(raw 5 ↦ 100)` and `(raw 10 ↦ 200)`,
raw line 7 is remapped to `100 + (7 - 5) - 1 = 101`. -/
theorem C4_witness :
    getLineNumberFromRaw exDirs 7 = 101 := by
  rw [C4_line_number_remap exDirs 7 (by rw [DirsSorted]; decide) (by decide)]
  rfl

theorem applyOp_spec (st : SMState) (op : SMOp) :
    (applyOp st op).2 = st.entries.length ∧
      (applyOp st op).1.entries.length = st.entries.length + 1 := by
  cases op <;> simp [applyOp]

theorem runOps_spec (ops : List SMOp) :
    ∀ st : SMState,
      (runOps st ops).2 = List.range' st.entries.length ops.length ∧
        (runOps st ops).1.entries.length = st.entries.length + ops.length := by
  induction ops with
  | nil => intro st; simp [runOps]
  | cons op ops ih =>
    intro st
    have h := applyOp_spec st op
    simp only [runOps, List.length_cons, List.range'_succ]
    constructor
    · rw [(ih (applyOp st op).1).1, h.1, h.2]
    · rw [(ih (applyOp st op).1).2, h.2]; omega

/-- C8: within a single `SourceManager`, every buffer-creating operation
(file buffer entry or macro-expansion buffer) assigns the new buffer the
ID equal to the number of buffer entries before the insertion — that is,
the number after the insertion minus one.  Starting from a fresh manager,
any sequence of creations is therefore assigned exactly the consecutive
IDs `1, 2, …, n` in order: dense, strictly increasing, never reused. -/
theorem C8_buffer_ids_dense_monotonic :
    (∀ (st : SMState) (op : SMOp),
        (applyOp st op).2 = st.entries.length ∧
          (applyOp st op).1.entries.length = (applyOp st op).2 + 1) ∧
      (∀ ops : List SMOp, (runOps initSM ops).2 = List.range' 1 ops.length) ∧
      (∀ ops : List SMOp, List.Pairwise (· < ·) (runOps initSM ops).2) := by
  refine ⟨?_, ?_, ?_⟩
  · intro st op
    have h := applyOp_spec st op
    exact ⟨h.1, by rw [h.1, h.2]⟩
  · intro ops
    have h := (runOps_spec ops initSM).1
    simpa [initSM] using h
  · intro ops
    rw [(runOps_spec ops initSM).1]
    exact List.pairwise_lt_range' _ _

/-! ### `isBeforeInCompilationUnit` -/

/-- `SourceManager::getFileInfo`, restricted to what `isBefore` observes:
the `includedFrom` location of a `FileInfo` entry at a valid buffer id,
`none` otherwise. -/
def fileInfoAt (sm : SMState) (b : Nat) : Option Loc :=
  if b = 0 then none
  else
    match sm.entries.get? b with
    | some (.fileInfo inc) => some inc
    | _ => none

/-- `SourceManager::isFileLoc`. -/
def isFileLoc (sm : SMState) (l : Loc) : Bool := (fileInfoAt sm l.buf).isSome

/-- `SourceManager::getIncludedFrom`. -/
def getIncludedFrom (sm : SMState) (b : Nat) : Loc :=
  match fileInfoAt sm b with
  | some inc => inc
  | none => Loc.invalid

/-- `SourceManager::getExpansionLoc`: the start of the expansion range of
the expansion entry of the location's buffer (an invalid location where
the C++ `std::get` would throw; unreachable for the locations the
verified theorems feed in). -/
def getExpansionLoc (sm : SMState) (l : Loc) : Loc :=
  if l.buf = 0 then Loc.invalid
  else
    match sm.entries.get? l.buf with
    | some (.expansionInfo _ s _ _ _) => s
    | _ => Loc.invalid

/-- The `moveUp` lambda of `isBeforeInCompilationUnit`: expansion buffers
step to their expansion location; file buffers step to their include
location, or report "stop" (`true`) at a root file. -/
def moveUp (sm : SMState) (l : Loc) : Loc × Bool :=
  if l.validB && !isFileLoc sm l then (getExpansionLoc sm l, false)
  else
    let included := getIncludedFrom sm l.buf
    if !included.validB then (l, true)
    else (included, false)

/-- `SmallMap::emplace`: insert the pair only when the key is absent. -/
def chainInsert (m : List (Nat × Nat)) (k v : Nat) : List (Nat × Nat) :=
  if (m.lookup k).isSome then m else (k, v) :: m

/-- The first loop of `isBeforeInCompilationUnit`: record `(buffer,
offset)` for `left` and walk up until reaching `right`'s buffer or a root.
The fuel bounds the loop; `entries.length` is always enough for a
well-formed manager, whose parent chains strictly decrease buffer ids. -/
def buildChain (sm : SMState) :
    Nat → Loc → Nat → List (Nat × Nat) → List (Nat × Nat) × Loc
  | 0, l, _, acc => (chainInsert acc l.buf l.off, l)
  | fuel + 1, l, rbuf, acc =>
    if l.buf = rbuf then (chainInsert acc l.buf l.off, l)
    else if (moveUp sm l).2 then (chainInsert acc l.buf l.off, l)
    else buildChain sm fuel (moveUp sm l).1 rbuf (chainInsert acc l.buf l.off)

/-- The second loop of `isBeforeInCompilationUnit`: walk `right` up until
its buffer is found in the recorded chain (returning the found chain
entry) or a root is reached. -/
def walkRight (sm : SMState) :
    Nat → Loc → List (Nat × Nat) → Option (Nat × Nat) × Loc
  | fuel, r, chain =>
    match chain.lookup r.buf with
    | some o => (some (r.buf, o), r)
    | none =>
      match fuel with
      | 0 => (none, r)
      | fuel + 1 =>
        if (moveUp sm r).2 then (none, r)
        else walkRight sm fuel (moveUp sm r).1 chain

/-- `SourceManager::isBeforeInCompilationUnit`: same-buffer locations
compare by offset; otherwise the left chain is recorded, the right
location walks up to the first recorded buffer, and the offsets at that
common ancestor are compared (`left` is replaced by the found chain entry
when there is one).  In the no-common-ancestor case the source asserts
(`ASSERT(left.buffer() == right.buffer())`); the model performs the
release-mode offset comparison. -/
def isBefore (sm : SMState) (l r : Loc) : Bool :=
  if l.buf = r.buf then l.off < r.off
  else
    match walkRight sm sm.entries.length r
        (buildChain sm sm.entries.length l r.buf []).1 with
    | (some kv, rfin) => kv.2 < rfin.off
    | (none, rfin) => (buildChain sm sm.entries.length l r.buf []).2.off < rfin.off

/-- The include/expansion parent of a buffer, when it has one: expansion
buffers point at the start of their expansion range, file buffers at
their (valid) include location. -/
def parentLoc (sm : SMState) (b : Nat) : Option Loc :=
  if b = 0 then none
  else
    match sm.entries.get? b with
    | some (.fileInfo inc) => if inc.validB then some inc else none
    | some (.expansionInfo _ s _ _ _) => some s
    | none => none

/-- Per-entry well-formedness at index `i`: an expansion buffer's
expansion start is a valid location in an earlier buffer, and a valid
include location is in an earlier buffer. -/
def entryWF (e : BufferEntry) (i : Nat) : Bool :=
  match e with
  | .fileInfo inc => !inc.validB || (1 ≤ inc.buf && inc.buf < i)
  | .expansionInfo _ s _ _ _ => 1 ≤ s.buf && s.buf < i

/-- Well-formed manager: every entry's parent pointers reference earlier
buffers.  This holds by construction: a buffer's parent location always
exists before the buffer is created (C8). -/
def WFsm (sm : SMState) : Prop :=
  ∀ i : Fin sm.entries.length, entryWF (sm.entries.get i) i.val = true

/-- A location in a real (non-dummy) buffer of the manager. -/
def LocInRange (sm : SMState) (l : Loc) : Prop :=
  1 ≤ l.buf ∧ l.buf < sm.entries.length

/-- The ancestor chain of a location: the location itself, then its
buffer's parent location, and so on up to a root.  The fuel argument
bounds the recursion; since parent buffer ids strictly decrease, `l.buf`
steps always suffice for a well-formed manager. -/
def ancChainAux (sm : SMState) : Nat → Loc → List Loc
  | 0, l => [l]
  | fuel + 1, l =>
    l ::
      (match parentLoc sm l.buf with
       | none => []
       | some p => ancChainAux sm fuel p)

/-- The ancestor chain with canonical fuel. -/
def ancChain (sm : SMState) (l : Loc) : List Loc := ancChainAux sm l.buf l

/-- The root location reached from `l` by walking include/expansion
parents. -/
def rootOf (sm : SMState) (l : Loc) : Loc := ((ancChain sm l).getLast?).getD l

/-- Comparison of two root-first ancestor paths: walk the common prefix of
buffers while offsets agree; at the first divergence, the result is the
offset comparison if the buffers still agree, and false (unrelated
branches) otherwise. -/
def pathCmpLt : List Loc → List Loc → Bool
  | p :: ps, q :: qs =>
    if p.buf = q.buf then
      if p.off = q.off then pathCmpLt ps qs else p.off < q.off
    else false
  | _, _ => false

/-- The prefix of a chain up to and including the first element in buffer
`rbuf` (the whole chain when no element is in that buffer): what the first
loop of `isBefore` actually records. -/
def takeUntilBuf (rbuf : Nat) : List Loc → List Loc
  | [] => []
  | x :: xs => if x.buf = rbuf then [x] else x :: takeUntilBuf rbuf xs

/-- The first element of a chain whose buffer is a key of the recorded
map, together with the mapped offset: what the second loop of `isBefore`
finds. -/
def firstHit (chain : List (Nat × Nat)) : List Loc → Option (Loc × Nat)
  | [] => none
  | x :: xs =>
    match chain.lookup x.buf with
    | some o => some (x, o)
    | none => firstHit chain xs

end SlangSM

namespace SlangSM

theorem parentLoc_lt (sm : SMState) (hwf : WFsm sm) (b : Nat) (p : Loc)
    (hp : parentLoc sm b = some p) : 1 ≤ p.buf ∧ p.buf < b := by
  unfold parentLoc at hp
  by_cases hb : b = 0
  · simp [hb] at hp
  · rw [if_neg hb] at hp
    cases hg : sm.entries.get? b with
    | none => rw [hg] at hp; simp at hp
    | some e =>
      rw [hg] at hp
      have hlen : b < sm.entries.length := (List.get?_eq_some.mp hg).1
      have hwfb := hwf ⟨b, hlen⟩
      have hget : sm.entries.get ⟨b, hlen⟩ = e := by
        have := (List.get?_eq_some.mp hg).2
        simpa using this
      rw [hget] at hwfb
      cases e with
      | fileInfo inc =>
        by_cases hv : inc.validB = true
        · simp only [hv, if_true, Option.some.injEq] at hp
          subst hp
          simp only [entryWF, hv, Bool.not_true, Bool.false_or, Bool.and_eq_true,
            decide_eq_true_eq] at hwfb
          exact hwfb
        · simp only [hv, if_false, Bool.false_eq_true] at hp
          exact Option.noConfusion hp
      | expansionInfo o s e2 arg nm =>
        simp only [Option.some.injEq] at hp
        subst hp
        simp only [entryWF, Bool.and_eq_true, decide_eq_true_eq] at hwfb
        exact hwfb

theorem moveUp_parent_some (sm : SMState) (l : Loc) (p : Loc)
    (hrange : l.buf < sm.entries.length)
    (hp : parentLoc sm l.buf = some p) : moveUp sm l = (p, false) := by
  unfold parentLoc at hp
  by_cases hb : l.buf = 0
  · simp [hb] at hp
  · rw [if_neg hb] at hp
    cases hg : sm.entries.get? l.buf with
    | none => rw [hg] at hp; simp at hp
    | some e =>
      rw [hg] at hp
      cases e with
      | fileInfo inc =>
        by_cases hv : inc.validB = true
        · simp only [hv, if_true, Option.some.injEq] at hp
          subst hp
          have hv2 : ¬inc.buf = 0 := by
            simpa [Loc.validB] using hv
          unfold moveUp isFileLoc fileInfoAt getIncludedFrom fileInfoAt
          rw [if_neg hb, hg]
          simp [Loc.validB, hb, hv2]
        · simp only [hv, if_false, Bool.false_eq_true] at hp
          exact Option.noConfusion hp
      | expansionInfo o s e2 arg nm =>
        simp only [Option.some.injEq] at hp
        subst hp
        unfold moveUp isFileLoc fileInfoAt getExpansionLoc
        rw [if_neg hb, hg]
        simp [Loc.validB, hb]

theorem moveUp_parent_none (sm : SMState) (l : Loc)
    (hb : 1 ≤ l.buf) (hrange : l.buf < sm.entries.length)
    (hp : parentLoc sm l.buf = none) : moveUp sm l = (l, true) := by
  have hb0 : l.buf ≠ 0 := by omega
  unfold parentLoc at hp
  rw [if_neg hb0] at hp
  cases hg : sm.entries.get? l.buf with
  | none =>
    have := List.get?_eq_none.mp hg
    omega
  | some e =>
    rw [hg] at hp
    cases e with
    | fileInfo inc =>
      by_cases hv : inc.validB = true
      · simp only [hv, if_true] at hp
        exact Option.noConfusion hp
      · unfold moveUp isFileLoc fileInfoAt getIncludedFrom fileInfoAt
        simp only [Bool.not_eq_true] at hv
        have hv2 : inc.buf = 0 := by simpa [Loc.validB] using hv
        rw [if_neg hb0, hg]
        simp [Loc.validB, hb0, hv, hv2]
    | expansionInfo o s e2 arg nm => simp at hp

end SlangSM
namespace SlangSM

theorem parentLoc_zero (sm : SMState) : parentLoc sm 0 = none := by
  simp [parentLoc]

theorem ancChainAux_stable (sm : SMState) (hwf : WFsm sm) :
    ∀ n : Nat, ∀ l : Loc, l.buf ≤ n → l.buf < sm.entries.length →
      ∀ fuel, l.buf ≤ fuel → ancChainAux sm fuel l = ancChain sm l := by
  intro n
  induction n using Nat.strong_induction_on with
  | _ n ih =>
  intro l hn hrange fuel hfuel
  unfold ancChain
  cases hb : l.buf with
  | zero =>
    cases fuel with
    | zero => rfl
    | succ f =>
      simp [ancChainAux, hb, parentLoc_zero]
  | succ k =>
    rw [hb] at hfuel
    cases fuel with
    | zero => omega
    | succ f =>
      simp only [ancChainAux]
      cases hp : parentLoc sm l.buf with
      | none => rfl
      | some p =>
        have hlt := parentLoc_lt sm hwf l.buf p hp
        have h1 : ancChainAux sm f p = ancChain sm p := by
          refine ih p.buf (by omega) p (Nat.le_refl _) (by omega) f (by omega)
        have h2 : ancChainAux sm k p = ancChain sm p := by
          refine ih p.buf (by omega) p (Nat.le_refl _) (by omega) k (by omega)
        simp only [h1, h2]

theorem ancChainAux_unfold_succ (sm : SMState) (f : Nat) (l : Loc) :
    ancChainAux sm (f + 1) l =
      l ::
        (match parentLoc sm l.buf with
         | none => []
         | some p => ancChainAux sm f p) := rfl

theorem ancChain_unfold (sm : SMState) (hwf : WFsm sm) (l : Loc)
    (hrange : l.buf < sm.entries.length) :
    ancChain sm l =
      l ::
        (match parentLoc sm l.buf with
         | none => []
         | some p => ancChain sm p) := by
  cases hl : l.buf with
  | zero =>
    unfold ancChain
    rw [hl]
    simp [ancChainAux, hl, parentLoc_zero]
  | succ k =>
    have h1 : ancChain sm l = ancChainAux sm (k + 1) l := by rw [ancChain, hl]
    rw [h1, ancChainAux_unfold_succ]
    cases hp : parentLoc sm l.buf with
    | none =>
      have hp2 : parentLoc sm (k + 1) = none := by rw [← hl]; exact hp
      simp [hp, hp2]
    | some p =>
      have hlt := parentLoc_lt sm hwf l.buf p hp
      have hp2 : parentLoc sm (k + 1) = some p := by rw [← hl]; exact hp
      simp only [hp, hp2]
      rw [ancChainAux_stable sm hwf p.buf p (Nat.le_refl _) (by omega) k (by omega)]

theorem ancChain_props (sm : SMState) (hwf : WFsm sm) :
    ∀ n : Nat, ∀ l : Loc, l.buf ≤ n → l.buf < sm.entries.length →
      (∀ x ∈ ancChain sm l, x.buf ≤ l.buf ∧ x.buf < sm.entries.length) ∧
        (ancChain sm l).Pairwise (fun a b => b.buf < a.buf) := by
  intro n
  induction n using Nat.strong_induction_on with
  | _ n ih =>
  intro l hn hrange
  rw [ancChain_unfold sm hwf l hrange]
  cases hp : parentLoc sm l.buf with
  | none =>
    refine ⟨?_, ?_⟩
    · intro x hx
      simp at hx
      subst hx
      exact ⟨Nat.le_refl _, hrange⟩
    · simp
  | some p =>
    have hlt := parentLoc_lt sm hwf l.buf p hp
    have hih := ih p.buf (by omega) p (Nat.le_refl _) (by omega)
    refine ⟨?_, ?_⟩
    · intro x hx
      simp only [List.mem_cons] at hx
      cases hx with
      | inl h => subst h; exact ⟨Nat.le_refl _, hrange⟩
      | inr h =>
        have := (hih.1 x h)
        exact ⟨by omega, this.2⟩
    · rw [List.pairwise_cons]
      refine ⟨?_, hih.2⟩
      intro y hy
      have := (hih.1 y hy).1
      omega

theorem ancChain_suffix (sm : SMState) (hwf : WFsm sm) :
    ∀ A : List Loc, ∀ l : Loc, l.buf < sm.entries.length →
      ∀ y : Loc, ∀ B : List Loc, ancChain sm l = A ++ y :: B →
        B =
          (match parentLoc sm y.buf with
           | none => []
           | some p => ancChain sm p) := by
  intro A
  induction A with
  | nil =>
    intro l hrange y B heq
    rw [ancChain_unfold sm hwf l hrange] at heq
    simp only [List.nil_append, List.cons.injEq] at heq
    obtain ⟨rfl, rfl⟩ := heq
    rfl
  | cons a A' ih =>
    intro l hrange y B heq
    rw [ancChain_unfold sm hwf l hrange] at heq
    simp only [List.cons_append, List.cons.injEq] at heq
    obtain ⟨rfl, heq2⟩ := heq
    cases hp : parentLoc sm l.buf with
    | none => simp only [hp] at heq2; simp at heq2
    | some p =>
      simp only [hp] at heq2
      have hlt := parentLoc_lt sm hwf l.buf p hp
      exact ih p (by omega) y B heq2

end SlangSM
namespace SlangSM

theorem lookup_none_iff (m : List (Nat × Nat)) (k : Nat) :
    m.lookup k = none ↔ ∀ p ∈ m, p.1 ≠ k := by
  induction m with
  | nil => simp [List.lookup]
  | cons a m ih =>
    cases hbeq : (k == a.1) with
    | true =>
      have hk : k = a.1 := by simpa using hbeq
      simp only [List.lookup, hbeq]
      constructor
      · intro h; exact Option.noConfusion h
      · intro h
        exact absurd hk.symm (h a (List.mem_cons_self a m))
    | false =>
      have hne : ¬k = a.1 := by simpa using hbeq
      simp only [List.lookup, hbeq, ih]
      constructor
      · intro h
        intro p hp
        rcases List.mem_cons.mp hp with rfl | hp2
        · exact fun hc => hne hc.symm
        · exact h p hp2
      · intro h p hp
        exact h p (List.mem_cons_of_mem a hp)

theorem lookup_some_mem (m : List (Nat × Nat)) (k v : Nat)
    (h : m.lookup k = some v) : (k, v) ∈ m := by
  induction m with
  | nil => simp [List.lookup] at h
  | cons a m ih =>
    cases hbeq : (k == a.1) with
    | true =>
      simp only [List.lookup, hbeq] at h
      have hk : k = a.1 := by simpa using hbeq
      injection h with hv
      subst hv
      subst hk
      simpa using List.mem_cons_self a m
    | false =>
      simp only [List.lookup, hbeq] at h
      exact List.mem_cons_of_mem a (ih h)

theorem takeUntilBuf_head (rbuf : Nat) (x : Loc) (xs : List Loc) :
    takeUntilBuf rbuf (x :: xs) = [x] ∨
      (x.buf ≠ rbuf ∧ takeUntilBuf rbuf (x :: xs) = x :: takeUntilBuf rbuf xs) := by
  by_cases h : x.buf = rbuf
  · left; simp [takeUntilBuf, h]
  · right; exact ⟨h, by simp [takeUntilBuf, h]⟩

theorem takeUntilBuf_sublist (rbuf : Nat) : ∀ xs : List Loc,
    (takeUntilBuf rbuf xs).Sublist xs := by
  intro xs
  induction xs with
  | nil => simp [takeUntilBuf]
  | cons x xs ih =>
    by_cases h : x.buf = rbuf
    · simp [takeUntilBuf, h]
    · simp only [takeUntilBuf, h, if_false, Bool.false_eq_true]
      exact ih.cons₂ x

theorem buildChain_spec (sm : SMState) (hwf : WFsm sm) :
    ∀ fuel : Nat, ∀ l : Loc, l.buf ≤ fuel → 1 ≤ l.buf → l.buf < sm.entries.length →
      ∀ (rbuf : Nat) (acc : List (Nat × Nat)),
      (∀ x ∈ takeUntilBuf rbuf (ancChain sm l), acc.lookup x.buf = none) →
      buildChain sm fuel l rbuf acc =
        ((takeUntilBuf rbuf (ancChain sm l)).reverse.map (fun x => (x.buf, x.off)) ++ acc,
          (takeUntilBuf rbuf (ancChain sm l)).getLast?.getD l) := by
  intro fuel
  induction fuel with
  | zero => intro l h1 h2 _ _ _ _; omega
  | succ fuel ih =>
    intro l hfuel h1 hrange rbuf acc hacc
    have hchain := ancChain_unfold sm hwf l hrange
    have hheadT : l ∈ takeUntilBuf rbuf (ancChain sm l) := by
      rw [hchain]
      rcases takeUntilBuf_head rbuf l _ with h | h
      · rw [h]; exact List.mem_singleton.mpr rfl
      · rw [h.2]; exact List.mem_cons_self _ _
    have hins : chainInsert acc l.buf l.off = (l.buf, l.off) :: acc := by
      rw [chainInsert, hacc l hheadT]
      rfl
    by_cases hr : l.buf = rbuf
    · have hT : takeUntilBuf rbuf (ancChain sm l) = [l] := by
        rw [hchain, takeUntilBuf, if_pos hr]
      rw [buildChain, hins, if_pos hr, hT]
      simp
    · cases hp : parentLoc sm l.buf with
      | none =>
        have hT : takeUntilBuf rbuf (ancChain sm l) = [l] := by
          rw [hchain, hp]
          simp [takeUntilBuf, hr]
        have hmv := moveUp_parent_none sm l h1 hrange hp
        rw [buildChain, hins, if_neg hr]
        simp only [hmv, if_true]
        rw [hT]
        simp
      | some p =>
        have hlt := parentLoc_lt sm hwf l.buf p hp
        have hmv := moveUp_parent_some sm l p hrange hp
        have hT : takeUntilBuf rbuf (ancChain sm l) =
            l :: takeUntilBuf rbuf (ancChain sm p) := by
          rw [hchain, hp, takeUntilBuf, if_neg hr]
        have hprops := ancChain_props sm hwf p.buf p (Nat.le_refl _) (by omega)
        have hacc2 : ∀ x ∈ takeUntilBuf rbuf (ancChain sm p),
            ((l.buf, l.off) :: acc).lookup x.buf = none := by
          intro x hx
          have hxa : x ∈ ancChain sm p :=
            (takeUntilBuf_sublist rbuf (ancChain sm p)).mem hx
          have hxb := (hprops.1 x hxa).1
          have hne : (x.buf == l.buf) = false := by
            simp only [beq_eq_false_iff_ne, ne_eq]
            omega
          rw [List.lookup, hne]
          exact hacc x (by rw [hT]; exact List.mem_cons_of_mem l hx)
        have hrec := ih p (by omega) (by omega) (by omega) rbuf
          ((l.buf, l.off) :: acc) hacc2
        rw [buildChain, hins, if_neg hr]
        simp only [hmv, Bool.false_eq_true, if_false]
        rw [hrec, hT]
        simp only [Prod.mk.injEq]
        constructor
        · simp
        · have hne : takeUntilBuf rbuf (ancChain sm p) ≠ [] := by
            have := ancChain_unfold sm hwf p (by omega)
            rw [this]
            rcases takeUntilBuf_head rbuf p _ with h | h
            · rw [h]; simp
            · rw [h.2]; simp
          obtain ⟨w, T2, hw⟩ := List.exists_cons_of_ne_nil hne
          rw [hw, List.getLast?_cons_cons]
          cases hg : (w :: T2).getLast? with
          | none => exact absurd (List.getLast?_eq_none_iff.mp hg) (by simp)
          | some z => rfl
end SlangSM
namespace SlangSM

theorem ancChainAux_ne_nil (sm : SMState) (fuel : Nat) (l : Loc) :
    ancChainAux sm fuel l ≠ [] := by
  cases fuel <;> simp [ancChainAux]

theorem ancChain_ne_nil (sm : SMState) (l : Loc) : ancChain sm l ≠ [] :=
  ancChainAux_ne_nil sm l.buf l

theorem getLastD_cons_ne (l d1 d2 : Loc) (ys : List Loc) (hne : ys ≠ []) :
    ((l :: ys).getLast?).getD d1 = (ys.getLast?).getD d2 := by
  obtain ⟨w, xs, rfl⟩ := List.exists_cons_of_ne_nil hne
  rw [List.getLast?_cons_cons]
  cases hg : (w :: xs).getLast? with
  | none => exact absurd (List.getLast?_eq_none_iff.mp hg) (by simp)
  | some z => rfl

theorem walkRight_spec (sm : SMState) (hwf : WFsm sm) :
    ∀ fuel : Nat, ∀ r : Loc, 1 ≤ r.buf → r.buf ≤ fuel + 1 → r.buf < sm.entries.length →
      ∀ chain : List (Nat × Nat),
      walkRight sm fuel r chain =
        (match firstHit chain (ancChain sm r) with
         | some xo => (some (xo.1.buf, xo.2), xo.1)
         | none => (none, (ancChain sm r).getLast?.getD r)) := by
  intro fuel
  induction fuel with
  | zero =>
    intro r h1 hf hrange chain
    have hchain := ancChain_unfold sm hwf r hrange
    have hp : parentLoc sm r.buf = none := by
      cases hp : parentLoc sm r.buf with
      | none => rfl
      | some p =>
        have := parentLoc_lt sm hwf r.buf p hp
        omega
    rw [hchain, hp] at *
    cases hlk : chain.lookup r.buf with
    | some o =>
      rw [walkRight]
      rw [hlk]
      simp [firstHit, hlk]
    | none =>
      rw [walkRight]
      rw [hlk]
      simp [firstHit, hlk]
  | succ fuel ih =>
    intro r h1 hf hrange chain
    have hchain := ancChain_unfold sm hwf r hrange
    cases hlk : chain.lookup r.buf with
    | some o =>
      rw [walkRight, hlk]
      rw [hchain]
      simp [firstHit, hlk]
    | none =>
      cases hp : parentLoc sm r.buf with
      | none =>
        have hmv := moveUp_parent_none sm r h1 hrange hp
        rw [walkRight, hlk]
        simp only [hmv, if_true]
        rw [hchain, hp]
        simp [firstHit, hlk]
      | some p =>
        have hlt := parentLoc_lt sm hwf r.buf p hp
        have hmv := moveUp_parent_some sm r p hrange hp
        rw [walkRight, hlk]
        simp only [hmv, Bool.false_eq_true, if_false]
        rw [ih p (by omega) (by omega) (by omega) chain]
        rw [hchain, hp]
        simp only [firstHit, hlk]
        cases hfh : firstHit chain (ancChain sm p) with
        | some xo => rfl
        | none =>
          rw [getLastD_cons_ne r r p (ancChain sm p) (ancChain_ne_nil sm p)]
end SlangSM
namespace SlangSM

theorem pathCmpLt_append_same : ∀ P A B : List Loc,
    pathCmpLt (P ++ A) (P ++ B) = pathCmpLt A B := by
  intro P
  induction P with
  | nil => intro A B; rfl
  | cons p P ih =>
    intro A B
    simp only [List.cons_append, pathCmpLt, if_pos rfl]
    exact ih A B

theorem firstHit_some_split (chain : List (Nat × Nat)) :
    ∀ S : List Loc, ∀ x : Loc, ∀ o : Nat, firstHit chain S = some (x, o) →
      ∃ Ra Rb : List Loc, S = Ra ++ x :: Rb ∧
        (∀ z ∈ Ra, chain.lookup z.buf = none) ∧ chain.lookup x.buf = some o := by
  intro S
  induction S with
  | nil => intro x o h; simp [firstHit] at h
  | cons s S ih =>
    intro x o h
    rw [firstHit] at h
    cases hlk : chain.lookup s.buf with
    | some v =>
      rw [hlk] at h
      injection h with h2
      injection h2 with ha hb
      subst ha
      subst hb
      exact ⟨[], S, rfl, by simp, hlk⟩
    | none =>
      rw [hlk] at h
      obtain ⟨Ra, Rb, h1, h2, h3⟩ := ih x o h
      refine ⟨s :: Ra, Rb, by rw [h1]; rfl, ?_, h3⟩
      intro z hz
      rcases List.mem_cons.mp hz with rfl | hz2
      · exact hlk
      · exact h2 z hz2

theorem firstHit_none (chain : List (Nat × Nat)) :
    ∀ S : List Loc, firstHit chain S = none →
      ∀ z ∈ S, chain.lookup z.buf = none := by
  intro S
  induction S with
  | nil => intro _ z hz; simp at hz
  | cons s S ih =>
    intro h z hz
    rw [firstHit] at h
    cases hlk : chain.lookup s.buf with
    | some v => rw [hlk] at h; exact Option.noConfusion h
    | none =>
      rw [hlk] at h
      rcases List.mem_cons.mp hz with rfl | hz2
      · exact hlk
      · exact ih h z hz2

theorem takeUntilBuf_prefix (rbuf : Nat) : ∀ xs : List Loc,
    ∃ rest : List Loc, xs = takeUntilBuf rbuf xs ++ rest := by
  intro xs
  induction xs with
  | nil => exact ⟨[], rfl⟩
  | cons x xs ih =>
    by_cases h : x.buf = rbuf
    · exact ⟨xs, by simp [takeUntilBuf, h]⟩
    · obtain ⟨rest, hrest⟩ := ih
      refine ⟨rest, ?_⟩
      simp only [takeUntilBuf, h, if_false, Bool.false_eq_true, List.cons_append]
      rw [← hrest]

theorem takeUntilBuf_cases (rbuf : Nat) : ∀ xs : List Loc,
    (takeUntilBuf rbuf xs = xs ∧ ∀ z ∈ xs, z.buf ≠ rbuf) ∨
      (∃ z ∈ takeUntilBuf rbuf xs, z.buf = rbuf) := by
  intro xs
  induction xs with
  | nil => left; exact ⟨rfl, by simp⟩
  | cons x xs ih =>
    by_cases h : x.buf = rbuf
    · right
      exact ⟨x, by simp [takeUntilBuf, h], h⟩
    · rcases ih with ⟨h1, h2⟩ | ⟨z, hz1, hz2⟩
      · left
        refine ⟨by simp [takeUntilBuf, h, h1], ?_⟩
        intro z hz
        rcases List.mem_cons.mp hz with rfl | hz2
        · exact h
        · exact h2 z hz2
      · right
        refine ⟨z, ?_, hz2⟩
        simp only [takeUntilBuf, h, if_false, Bool.false_eq_true]
        exact List.mem_cons_of_mem x hz1

theorem chainPairs_lookup_some (T : List Loc) (b o : Nat)
    (h : (T.reverse.map (fun x => (x.buf, x.off))).lookup b = some o) :
    ∃ y ∈ T, y.buf = b ∧ y.off = o := by
  have hmem := lookup_some_mem _ b o h
  simp only [List.mem_map, List.mem_reverse] at hmem
  obtain ⟨y, hy, heq⟩ := hmem
  injection heq with h1 h2
  exact ⟨y, hy, h1, h2⟩

theorem chainPairs_lookup_none (T : List Loc) (b : Nat)
    (h : (T.reverse.map (fun x => (x.buf, x.off))).lookup b = none) :
    ∀ y ∈ T, y.buf ≠ b := by
  intro y hy
  have := (lookup_none_iff _ b).mp h (y.buf, y.off)
    (by simp only [List.mem_map, List.mem_reverse]; exact ⟨y, hy, rfl⟩)
  simpa using this

end SlangSM
namespace SlangSM

theorem getLastD_mem (xs : List Loc) (d : Loc) (h : xs ≠ []) :
    xs.getLast?.getD d ∈ xs := by
  cases hg : xs.getLast? with
  | none => exact absurd (List.getLast?_eq_none_iff.mp hg) h
  | some z =>
    simp only [Option.getD_some]
    have hz : z ∈ xs.getLast? := by rw [hg]; rfl
    obtain ⟨hne2, hz2⟩ := List.mem_getLast?_eq_getLast hz
    rw [hz2]
    exact List.getLast_mem hne2

theorem isBefore_eq_pathCmp (sm : SMState) (hwf : WFsm sm) (l r : Loc)
    (hl1 : 1 ≤ l.buf) (hl2 : l.buf < sm.entries.length)
    (hr1 : 1 ≤ r.buf) (hr2 : r.buf < sm.entries.length)
    (hroot : (rootOf sm l).buf = (rootOf sm r).buf) :
    isBefore sm l r = pathCmpLt (ancChain sm l).reverse (ancChain sm r).reverse := by
  by_cases hbuf : l.buf = r.buf
  · have hcl := ancChain_unfold sm hwf l hl2
    have hcr := ancChain_unfold sm hwf r hr2
    have htail :
        (match parentLoc sm l.buf with
         | none => ([] : List Loc)
         | some p => ancChain sm p) =
        (match parentLoc sm r.buf with
         | none => ([] : List Loc)
         | some p => ancChain sm p) := by rw [hbuf]
    unfold isBefore
    rw [if_pos hbuf, hcl, hcr, htail, List.reverse_cons, List.reverse_cons,
      pathCmpLt_append_same]
    by_cases hoff : l.off = r.off
    · simp [pathCmpLt, hbuf, hoff]
    · simp [pathCmpLt, hbuf, hoff]
  · have hbc := buildChain_spec sm hwf sm.entries.length l (Nat.le_of_lt hl2) hl1 hl2 r.buf []
      (by intro x hx; rfl)
    rw [List.append_nil] at hbc
    have hwr := walkRight_spec sm hwf sm.entries.length r hr1 (by omega) hr2
      ((takeUntilBuf r.buf (ancChain sm l)).reverse.map (fun x => (x.buf, x.off)))
    unfold isBefore
    rw [if_neg hbuf, hbc, hwr]
    cases hfh : firstHit ((takeUntilBuf r.buf (ancChain sm l)).reverse.map
        (fun x => (x.buf, x.off))) (ancChain sm r) with
    | none =>
      -- contradicts the common-root hypothesis
      exfalso
      have hnone := firstHit_none _ _ hfh
      rcases takeUntilBuf_cases r.buf (ancChain sm l) with ⟨hfull, hnor⟩ | ⟨z, hz1, hz2⟩
      · -- no truncation: the root of l is recorded, and the root of r has the same buffer
        have hzr : (ancChain sm r).getLast?.getD r ∈ ancChain sm r :=
          getLastD_mem _ r (ancChain_ne_nil sm r)
        have hzl : (ancChain sm l).getLast?.getD l ∈ ancChain sm l :=
          getLastD_mem _ l (ancChain_ne_nil sm l)
        have h1 := hnone _ hzr
        have h2 := chainPairs_lookup_none _ _ h1 ((ancChain sm l).getLast?.getD l)
          (by rw [hfull]; exact hzl)
        exact h2 hroot
      · -- truncation: r's own buffer is recorded, and r heads its own chain
        have hr_mem : r ∈ ancChain sm r := by
          rw [ancChain_unfold sm hwf r hr2]
          exact List.mem_cons_self _ _
        have h1 := hnone r hr_mem
        have h2 := chainPairs_lookup_none _ _ h1 z hz1
        exact h2 hz2
    | some xo =>
      obtain ⟨x, o⟩ := xo
      obtain ⟨Ra, Rb, hsplit, hranone, hlkx⟩ := firstHit_some_split _ _ x o hfh
      obtain ⟨y, hyT, hybuf, hyoff⟩ := chainPairs_lookup_some _ _ _ hlkx
      obtain ⟨Ta, Tb, hTsplit⟩ := List.append_of_mem hyT
      obtain ⟨rest, hrest⟩ := takeUntilBuf_prefix r.buf (ancChain sm l)
      have hlsplit : ancChain sm l = Ta ++ y :: (Tb ++ rest) := by
        rw [hrest, hTsplit]
        simp
      have hsufL := ancChain_suffix sm hwf Ta l hl2 y (Tb ++ rest) hlsplit
      have hsufR := ancChain_suffix sm hwf Ra r hr2 x Rb hsplit
      have hS : Tb ++ rest = Rb := by
        rw [hsufL, hsufR, hybuf]
      -- pathCmpLt via the common suffix
      have hrw : pathCmpLt (ancChain sm l).reverse (ancChain sm r).reverse =
          pathCmpLt (y :: Ta.reverse) (x :: Ra.reverse) := by
        rw [hlsplit, hsplit, hS]
        rw [List.reverse_append, List.reverse_cons, List.reverse_append, List.reverse_cons]
        rw [List.append_assoc, List.append_assoc]
        rw [pathCmpLt_append_same]
        simp
      rw [hrw]
      simp only [pathCmpLt, hybuf, if_pos rfl]
      by_cases hoff : y.off = x.off
      · -- offsets agree at the common ancestor: both sides are false
        rw [if_pos hoff]
        have hfalse : pathCmpLt Ta.reverse Ra.reverse = false := by
          cases hTa : Ta.reverse with
          | nil => rfl
          | cons u Us =>
            cases hRa : Ra.reverse with
            | nil => simp [pathCmpLt]
            | cons w Ws =>
              have hu : u ∈ Ta := by
                have : u ∈ Ta.reverse := by rw [hTa]; exact List.mem_cons_self _ _
                exact List.mem_reverse.mp this
              have hw : w ∈ Ra := by
                have : w ∈ Ra.reverse := by rw [hRa]; exact List.mem_cons_self _ _
                exact List.mem_reverse.mp this
              have hwnone := hranone w hw
              have hne := chainPairs_lookup_none _ _ hwnone u
                (by rw [hTsplit]; exact List.mem_append_left _ hu)
              simp only [pathCmpLt]
              rw [if_neg hne]
        rw [hfalse, ← hyoff, hoff]
        simp
      · rw [if_neg hoff, ← hyoff]
        simp
end SlangSM
namespace SlangSM

theorem pathCmpLt_irrefl : ∀ P : List Loc, pathCmpLt P P = false := by
  intro P
  induction P with
  | nil => rfl
  | cons p ps ih => simp [pathCmpLt, ih]

theorem pathCmpLt_asymm : ∀ P Q : List Loc,
    pathCmpLt P Q = true → pathCmpLt Q P = false := by
  intro P
  induction P with
  | nil => intro Q h; simp [pathCmpLt] at h
  | cons p ps ih =>
    intro Q h
    cases Q with
    | nil => simp [pathCmpLt] at h
    | cons q qs =>
      simp only [pathCmpLt] at h ⊢
      by_cases hb : p.buf = q.buf
      · rw [if_pos hb] at h
        rw [if_pos hb.symm]
        by_cases ho : p.off = q.off
        · rw [if_pos ho] at h
          rw [if_pos ho.symm]
          exact ih qs h
        · rw [if_neg ho] at h
          rw [if_neg (fun hc => ho hc.symm)]
          simp only [decide_eq_true_eq] at h
          simp only [decide_eq_false_iff_not]
          omega
      · rw [if_neg hb] at h
        exact Bool.noConfusion h

theorem pathCmpLt_trans : ∀ P Q R : List Loc,
    pathCmpLt P Q = true → pathCmpLt Q R = true → pathCmpLt P R = true := by
  intro P
  induction P with
  | nil => intro Q R h _; simp [pathCmpLt] at h
  | cons p ps ih =>
    intro Q R h1 h2
    cases Q with
    | nil => simp [pathCmpLt] at h1
    | cons q qs =>
      cases R with
      | nil => simp [pathCmpLt] at h2
      | cons z zs =>
        simp only [pathCmpLt] at h1 h2 ⊢
        by_cases hb1 : p.buf = q.buf
        · by_cases hb2 : q.buf = z.buf
          · rw [if_pos hb1] at h1
            rw [if_pos hb2] at h2
            rw [if_pos (hb1.trans hb2)]
            by_cases ho1 : p.off = q.off
            · by_cases ho2 : q.off = z.off
              · rw [if_pos ho1] at h1
                rw [if_pos ho2] at h2
                rw [if_pos (ho1.trans ho2)]
                exact ih qs zs h1 h2
              · rw [if_pos ho1] at h1
                rw [if_neg ho2] at h2
                rw [if_neg (by rw [ho1]; exact ho2)]
                rw [ho1]
                exact h2
            · rw [if_neg ho1] at h1
              simp only [decide_eq_true_eq] at h1
              by_cases ho2 : q.off = z.off
              · rw [if_neg (by rw [← ho2]; exact ho1)]
                simp only [decide_eq_true_eq]
                omega
              · rw [if_neg ho2] at h2
                simp only [decide_eq_true_eq] at h2
                rw [if_neg (by intro hc; omega)]
                simp only [decide_eq_true_eq]
                omega
          · rw [if_neg hb2] at h2
            exact Bool.noConfusion h2
        · rw [if_neg hb1] at h1
          exact Bool.noConfusion h1

end SlangSM
namespace SlangSM

def cxSM : SMState :=
  ⟨[.fileInfo Loc.invalid, .fileInfo Loc.invalid,
    .expansionInfo ⟨1, 0⟩ ⟨1, 10⟩ ⟨1, 14⟩ false (some "M")]⟩

/-- C5: `isBeforeInCompilationUnit` is not total on distinct locations
with a common root: a location inside a macro-expansion buffer and the
file location at which that expansion was invoked project to the same
offset at their common ancestor, so neither compares before the other. -/
theorem C5_counterexample :
    WFsm cxSM ∧
      (⟨2, 5⟩ : Loc) ≠ (⟨1, 10⟩ : Loc) ∧
      (rootOf cxSM ⟨2, 5⟩).buf = (rootOf cxSM ⟨1, 10⟩).buf ∧
      isBefore cxSM ⟨2, 5⟩ ⟨1, 10⟩ = false ∧
      isBefore cxSM ⟨1, 10⟩ ⟨2, 5⟩ = false := by
  refine ⟨?_, ?_, ?_, ?_, ?_⟩
  · unfold WFsm
    decide
  all_goals decide

/-- C5 (amended): `isBeforeInCompilationUnit` is a strict partial order on
the locations of a well-formed manager whose parent chains reach a common
root buffer: it is irreflexive (unconditionally), asymmetric, and
transitive.  It is not total: two distinct locations may both fail to
compare when they project to the same offset at their nearest common
ancestor buffer (see the counterexample). -/
theorem C5_isBefore_order_amended :
    (∀ (sm : SMState) (l : Loc), isBefore sm l l = false) ∧
      (∀ (sm : SMState) (l r : Loc), WFsm sm →
          LocInRange sm l → LocInRange sm r →
          (rootOf sm l).buf = (rootOf sm r).buf →
          isBefore sm l r = true → isBefore sm r l = false) ∧
      (∀ (sm : SMState) (a b c : Loc), WFsm sm →
          LocInRange sm a → LocInRange sm b → LocInRange sm c →
          (rootOf sm a).buf = (rootOf sm b).buf →
          (rootOf sm b).buf = (rootOf sm c).buf →
          isBefore sm a b = true → isBefore sm b c = true → isBefore sm a c = true) := by
  refine ⟨?_, ?_, ?_⟩
  · intro sm l
    unfold isBefore
    simp
  · intro sm l r hwf hl hr hroot h
    rw [isBefore_eq_pathCmp sm hwf l r hl.1 hl.2 hr.1 hr.2 hroot] at h
    rw [isBefore_eq_pathCmp sm hwf r l hr.1 hr.2 hl.1 hl.2 hroot.symm]
    exact pathCmpLt_asymm _ _ h
  · intro sm a b c hwf ha hb hc hab hbc h1 h2
    rw [isBefore_eq_pathCmp sm hwf a b ha.1 ha.2 hb.1 hb.2 hab] at h1
    rw [isBefore_eq_pathCmp sm hwf b c hb.1 hb.2 hc.1 hc.2 hbc] at h2
    rw [isBefore_eq_pathCmp sm hwf a c ha.1 ha.2 hc.1 hc.2 (hab.trans hbc)]
    exact pathCmpLt_trans _ _ _ h1 h2

def wSM : SMState := ⟨[.fileInfo Loc.invalid, .fileInfo Loc.invalid]⟩

/-- Witness for C5: in a two-buffer manager, offsets within the root file
buffer order transitively. -/
theorem C5_witness :
    isBefore wSM ⟨1, 1⟩ ⟨1, 3⟩ = true :=
  C5_isBefore_order_amended.2.2 wSM ⟨1, 1⟩ ⟨1, 2⟩ ⟨1, 3⟩ (by unfold WFsm; decide)
    (by unfold LocInRange; decide) (by unfold LocInRange; decide)
    (by unfold LocInRange; decide) (by decide) (by decide) (by decide) (by decide)

end SlangSM

namespace SlangSV

/-!
Four-state integer values of the constant evaluator.  The `SVInt` and
evaluator sources are not part of the excerpt (only the eval tests are),
so the operations here are modelled from the specification (§3.7, §4.6)
and checked against the repository's own eval tests.
-/

/-- Modelled from the spec: `SVInt`, a fixed-width four-state integer.
`val` holds the value bits and `unk` the unknown bits; a bit is `X` when
its value bit is 0 and its unknown bit 1, and `Z` when both are 1.
Well-formed values keep bits at and above `w` zero. -/
structure SV4 where
  w : Nat
  val : Nat
  unk : Nat
deriving DecidableEq, Repr

/-- All-ones mask of a width. -/
def mask (w : Nat) : Nat := 2 ^ w - 1

/-- The all-`X` value of a width. -/
def allX (w : Nat) : SV4 := ⟨w, 0, mask w⟩

/-- Modelled from the spec: four-state division.  "Division or modulo by
zero yields all-`X` of the result width with no exception" (§4.6), and
four-state arithmetic propagates `X` when any operand bit is unknown.
Operands have been widened to the result width by the binder. -/
def svDiv (a b : SV4) : SV4 :=
  if a.unk ≠ 0 || b.unk ≠ 0 || b.val = 0 then allX a.w
  else ⟨a.w, a.val / b.val, 0⟩

/-- Modelled from the spec: the merge of the two branches of a conditional
whose condition is unknown — "bits that agree keep their value; bits that
disagree become X" (§4.6).  `diff` marks positions where the four-state
bits of the branches differ. -/
def svCondMerge (t f : SV4) : SV4 :=
  ⟨t.w, t.val &&& (mask t.w ^^^ ((t.val ^^^ f.val) ||| (t.unk ^^^ f.unk))),
    (t.unk ||| ((t.val ^^^ f.val) ||| (t.unk ^^^ f.unk))) &&& mask t.w⟩

/-- Modelled from the spec: the conditional operator `c ? t : f` — a known
condition selects a branch; an unknown condition merges the branches. -/
def svConditional (c t f : SV4) : SV4 :=
  if c.unk ≠ 0 then svCondMerge t f
  else if c.val ≠ 0 then t else f

/-- Modelled from the spec: concatenation `{a, b}` lays the operands out
MSB-first in a value of width `w(a) + w(b)` (§4.6). -/
def svConcat (a b : SV4) : SV4 :=
  ⟨a.w + b.w, a.val <<< b.w ||| b.val, a.unk <<< b.w ||| b.unk⟩

/-- The one-bit true result. -/
def svOne : SV4 := ⟨1, 1, 0⟩

/-- The one-bit false result. -/
def svZero : SV4 := ⟨1, 0, 0⟩

/-- The one-bit unknown result. -/
def svXBit : SV4 := ⟨1, 0, 1⟩

/-- The wildcard-equality rule exactly as the claim (and the spec's
general rule) states it: bit positions where the right operand is `X` or
`Z` are don't-care and all remaining positions must match; whenever the
left operand has any `X` or `Z` bit, the one-bit result is `X`. -/
def wildcardEqClaim (a b : SV4) : SV4 :=
  if a.unk ≠ 0 then svXBit
  else if a.val &&& (mask b.w ^^^ b.unk) = b.val &&& (mask b.w ^^^ b.unk) then svOne
  else svZero

/-- Modelled from the spec: the repository's wildcard equality,
reconstructed from the scenario table and the eval test `wildcardEq`
expecting `{1'b1 / 1'b0, 4'b1001} ==? 5'b11001` to evaluate to 1 (the
`SVInt` sources are not in the excerpt): bit positions where either
operand is `X` or `Z` are don't-care; all remaining positions must
match. -/
def wildcardEqImpl (a b : SV4) : SV4 :=
  if a.val &&& (mask b.w ^^^ ((a.unk ||| b.unk) &&& mask b.w)) =
      b.val &&& (mask b.w ^^^ ((a.unk ||| b.unk) &&& mask b.w)) then svOne
  else svZero

/-- The left operand of the scenario: `{1'b1 / 1'b0, 4'b1001}`. -/
def c7lhs : SV4 := svConcat (svDiv ⟨1, 1, 0⟩ ⟨1, 0, 0⟩) ⟨4, 9, 0⟩

/-- The right operand of the scenario: `5'b11001`. -/
def c7rhs : SV4 := ⟨5, 25, 0⟩

/-- C6: division by zero yields the all-`X` value of the result width
(without raising); a conditional whose condition is unknown merges the
branches bit-by-bit; evaluating `(1/0) ? 128'b101 : 128'b110` therefore
yields the 128-bit value with value bits `100` and unknown bits `011`,
i.e. bottom three bits `1XX` and every bit at position 3 and above 0. -/
theorem C6_div_zero_conditional_merge :
    (∀ a b : SV4, b.val = 0 → svDiv a b = allX a.w) ∧
      svDiv ⟨32, 1, 0⟩ ⟨32, 0, 0⟩ = allX 32 ∧
      (∀ c t f : SV4, c.unk ≠ 0 → svConditional c t f = svCondMerge t f) ∧
      svConditional (svDiv ⟨32, 1, 0⟩ ⟨32, 0, 0⟩) ⟨128, 5, 0⟩ ⟨128, 6, 0⟩ =
        ⟨128, 4, 3⟩ ∧
      (∀ i, 3 ≤ i →
        ((4 : Nat).testBit i = false ∧ (3 : Nat).testBit i = false)) ∧
      (4 : Nat).testBit 2 = true ∧ (3 : Nat).testBit 2 = false ∧
      (3 : Nat).testBit 1 = true ∧ (3 : Nat).testBit 0 = true := by
  refine ⟨?_, by decide, ?_, by decide, ?_, by decide, by decide, by decide, by decide⟩
  · intro a b hb
    simp [svDiv, hb]
  · intro c t f hc
    simp [svConditional, hc]
  · intro i hi
    constructor <;> · apply Nat.testBit_lt_two_pow; calc _ < 2^3 := by decide
                      _ ≤ 2^i := Nat.pow_le_pow_right (by decide) hi

/-- Witness for C6 at concrete inputs. -/
theorem C6_witness :
    svDiv ⟨8, 7, 0⟩ ⟨8, 0, 0⟩ = allX 8 ∧
      svConditional ⟨1, 0, 1⟩ ⟨4, 3, 0⟩ ⟨4, 5, 0⟩ = svCondMerge ⟨4, 3, 0⟩ ⟨4, 5, 0⟩ ∧
      (4 : Nat).testBit 7 = false ∧ (3 : Nat).testBit 7 = false :=
  ⟨C6_div_zero_conditional_merge.1 ⟨8, 7, 0⟩ ⟨8, 0, 0⟩ rfl,
   C6_div_zero_conditional_merge.2.2.1 ⟨1, 0, 1⟩ ⟨4, 3, 0⟩ ⟨4, 5, 0⟩ (by decide),
   C6_div_zero_conditional_merge.2.2.2.2.1 7 (by decide)⟩

/-- C7 counterexample: on the scenario's own operands the claimed rule
("an X/Z bit anywhere in the left operand makes the result X") yields
the one-bit X, not the one-bit 1 that the scenario table and the
repository's eval test require; the reconstructed implementation rule
(don't-care wherever either operand is X/Z) yields 1. -/
theorem C7_counterexample :
    c7lhs = ⟨5, 9, 16⟩ ∧
      wildcardEqClaim c7lhs c7rhs = svXBit ∧
      wildcardEqClaim c7lhs c7rhs ≠ svOne ∧
      wildcardEqImpl c7lhs c7rhs = svOne := by
  refine ⟨by decide, by decide, by decide, by decide⟩

/-- C7 amended: wildcard equality over equal-width four-state operands
returns the one-bit 1 exactly when every bit position below the width at
which neither operand is X or Z has equal value bits. -/
theorem C7_wildcard_eq_amended (a b : SV4) (hw : a.w = b.w) :
    wildcardEqImpl a b = svOne ↔
      ∀ i, i < b.w → a.unk.testBit i = false → b.unk.testBit i = false →
        a.val.testBit i = b.val.testBit i := by
  rw [wildcardEqImpl]
  by_cases h : a.val &&& (mask b.w ^^^ ((a.unk ||| b.unk) &&& mask b.w)) =
      b.val &&& (mask b.w ^^^ ((a.unk ||| b.unk) &&& mask b.w))
  · rw [if_pos h]
    simp only [true_iff]
    intro i hi hau hbu
    have := congrArg (fun n => n.testBit i) h
    simp only [Nat.testBit_land, Nat.testBit_xor, Nat.testBit_or, hau, hbu, mask,
      Nat.testBit_two_pow_sub_one, hi, decide_eq_true_eq] at this
    simpa using this
  · rw [if_neg h]
    constructor
    · intro hx; exact absurd hx (by simp [svOne, svZero])
    · intro hall
      exfalso
      apply h
      apply Nat.eq_of_testBit_eq
      intro i
      simp only [Nat.testBit_land, Nat.testBit_xor, Nat.testBit_or, mask,
        Nat.testBit_two_pow_sub_one]
      by_cases hi : i < b.w
      · by_cases hau : a.unk.testBit i
        · simp [hau, hi]
        · by_cases hbu : b.unk.testBit i
          · simp [hbu, hi]
          · simp only [Bool.not_eq_true] at hau hbu
            rw [hall i hi hau hbu]
      · simp [hi]

/-- Witness for C7: 2'b10 wildcard-equals 2'b1Z. -/
theorem C7_witness :
    wildcardEqImpl ⟨2, 2, 0⟩ ⟨2, 3, 1⟩ = svOne :=
  (C7_wildcard_eq_amended ⟨2, 2, 0⟩ ⟨2, 3, 1⟩ rfl).mpr (by decide)

end SlangSV

namespace SlangSubr

/-!
Out-of-block class methods: `MethodPrototypeSymbol::getSubroutine`
(SubroutineSymbols.cpp lines 784-872) and
`SubroutineSymbol::createOutOfBlock` (lines 280-383).  Calls into opaque
subsystems (`Compilation::findOutOfBlockDecl`, `Lookup::unqualified`,
`fromSyntax`, `checkMethodMatch`, `isSameExpr`) are oracle inputs in the
environment records; the return-type match uses the real
`SlangTypes.isMatching`.  The outputs modelled are the returned
subroutine's copied fields and the diagnostics each function emits
directly.
-/

/-- Symbol visibility. -/
inductive Visibility
| Public
| Protected
| Local
deriving DecidableEq, Repr

/-- The `MethodFlags` bits that this code path reads or writes. -/
structure MethodFlags where
  virtualM : Bool
  pureM : Bool
  staticM : Bool
  interfaceImport : Bool
deriving DecidableEq, Repr

/-- Diagnostic codes emitted along these code paths. -/
inductive DiagKind
| BodyForPure
| NoMemberImplFound
| MemberDefinitionBeforeClass
| MethodReturnTypeScoped
| MethodKindMismatch
| MethodReturnMismatch
| MethodArgCountMismatch
| MethodArgNameMismatch
| MethodArgTypeMismatch
| MethodArgDirectionMismatch
| MethodArgNoDefault
| MethodArgDefaultMismatch
| NotASubroutine
deriving DecidableEq, Repr

/-- The diagnostics `checkMethodMatch` can emit; it emits exactly one,
then returns false (lines 874-940), so a successful check emits none. -/
inductive MatchDiag
| KindMismatch
| ReturnMismatch
| ArgCountMismatch
| ArgNameMismatch
| ArgTypeMismatch
| ArgDirectionMismatch
deriving DecidableEq, Repr

def matchDiagKind : MatchDiag → DiagKind
| .KindMismatch => .MethodKindMismatch
| .ReturnMismatch => .MethodReturnMismatch
| .ArgCountMismatch => .MethodArgCountMismatch
| .ArgNameMismatch => .MethodArgNameMismatch
| .ArgTypeMismatch => .MethodArgTypeMismatch
| .ArgDirectionMismatch => .MethodArgDirectionMismatch

/-- The diagnostics the default-argument loop of createOutOfBlock can
emit (lines 331-380); every path of that loop still returns the result. -/
inductive ArgDiag
| NoDefault
| DefaultMismatch
deriving DecidableEq, Repr

def argDiagKind : ArgDiag → DiagKind
| .NoDefault => .MethodArgNoDefault
| .DefaultMismatch => .MethodArgDefaultMismatch

/-- What `Lookup::unqualified(definitionScope, retName)` reports about
the found symbol: its index in the scope, whether it is a type symbol,
and the type it denotes. -/
structure LookupRes where
  idx : Nat
  isTypeSym : Bool
  ty : SlangTypes.TypeObj
deriving DecidableEq, Repr

/-- The fields of the constructed `SubroutineSymbol` that
createOutOfBlock sets (lines 292-303). -/
structure Subr where
  visibility : Visibility
  flags : MethodFlags
  hasThisVar : Bool
deriving DecidableEq, Repr

/-- Oracle inputs of `createOutOfBlock`: the prototype's stored
visibility/flags, the `isVirtual()` result, the `checkMethodMatch`
outcome, whether the definition return type resolved in the class scope
(line 310), the simple type name of the return type syntax (line 311,
empty when there is none), the definition return type itself, the result
of the repeated lookup in the definition scope (line 316), and the
diagnostics of the default-argument loop. -/
structure OOBEnv where
  protoVis : Visibility
  protoFlags : MethodFlags
  protoIsVirtual : Bool
  checkMatchOk : Bool
  matchDiag : MatchDiag
  retTypeInClassScope : Bool
  retName : String
  defRetType : SlangTypes.TypeObj
  lookupFound : Option LookupRes
  argDiags : List ArgDiag
deriving Repr

/-- Lines 296-300: flags come from the prototype, or-ing in Virtual when
the prototype is virtual. -/
def oobFlags (env : OOBEnv) : MethodFlags :=
  if env.protoIsVirtual then { env.protoFlags with virtualM := true }
  else env.protoFlags

/-- Lines 296-303: the constructed subroutine: visibility and flags
copied from the prototype; a `this` var added unless static. -/
def mkOOBSubr (env : OOBEnv) : Subr :=
  ⟨env.protoVis, oobFlags env, !(oobFlags env).staticM⟩

/-- Line 317: the failure condition of the repeated return-type lookup:
nothing found, or found after the out-of-block definition, or not a
type, or not matching the definition return type. -/
def retLookupBad (env : OOBEnv) (outOfBlockIndex : Nat) : Bool :=
  match env.lookupFound with
  | none => true
  | some f =>
    decide (f.idx > outOfBlockIndex) || !f.isTypeSym ||
      !(SlangTypes.isMatching f.ty env.defRetType)

/-- `SubroutineSymbol::createOutOfBlock` (lines 280-383): sets the
fields, returns early after a failed `checkMethodMatch` (line 305); for
a class-scoped simple-name return type repeats the lookup in the
definition scope and emits `MethodReturnTypeScoped` on failure
(lines 308-326), still returning the subroutine; otherwise runs the
default-argument loop. -/
def createOutOfBlock (env : OOBEnv) (outOfBlockIndex : Nat) :
    Subr × List DiagKind :=
  if env.checkMatchOk = false then
    (mkOOBSubr env, [matchDiagKind env.matchDiag])
  else if env.retTypeInClassScope && !(env.retName == "") then
    if retLookupBad env outOfBlockIndex then
      (mkOOBSubr env, [DiagKind.MethodReturnTypeScoped])
    else (mkOOBSubr env, env.argDiags.map argDiagKind)
  else (mkOOBSubr env, env.argDiags.map argDiagKind)

/-- Oracle inputs of `getSubroutine`: the createOutOfBlock environment,
the `findOutOfBlockDecl` outcome (a declaration found, its kind, its
index), the class symbol's index, the `createFromPrototype` stub, and
the outcome of the opaque InterfaceImport branch (lines 794-828). -/
structure GetSubrEnv where
  oob : OOBEnv
  declSyntaxFound : Bool
  declKindIsFuncOrTask : Bool
  index : Nat
  parentSymIndex : Nat
  protoStub : Subr
  ifaceResult : Option Subr
  ifaceDiags : List DiagKind
deriving Repr

/-- `MethodPrototypeSymbol::getSubroutine` (lines 784-872), uncached
path: the InterfaceImport branch is an oracle; a pure prototype with a
body gets `BodyForPure` and null, without a body a stub; no body at all
gets `NoMemberImplFound` and null; a definition before the class gets
`MemberDefinitionBeforeClass` but still proceeds; otherwise the result
of createOutOfBlock is returned (line 869-871). -/
def getSubroutine (env : GetSubrEnv) : Option Subr × List DiagKind :=
  if env.oob.protoFlags.interfaceImport then (env.ifaceResult, env.ifaceDiags)
  else if env.oob.protoFlags.pureM then
    if env.declSyntaxFound && env.declKindIsFuncOrTask then
      (none, [DiagKind.BodyForPure])
    else (some env.protoStub, [])
  else if !(env.declSyntaxFound && env.declKindIsFuncOrTask) then
    (none, [DiagKind.NoMemberImplFound])
  else if env.index ≤ env.parentSymIndex then
    ((createOutOfBlock env.oob env.index).1,
      DiagKind.MemberDefinitionBeforeClass :: (createOutOfBlock env.oob env.index).2)
  else
    ((createOutOfBlock env.oob env.index).1,
      (createOutOfBlock env.oob env.index).2)

/-- The default-argument loop never emits MethodReturnTypeScoped. -/
theorem mem_map_argDiagKind (l : List ArgDiag) :
    DiagKind.MethodReturnTypeScoped ∉ l.map argDiagKind := by
  intro h
  rcases List.mem_map.1 h with ⟨a, _, ha⟩
  cases a <;> simp [argDiagKind] at ha

/-- checkMethodMatch never emits MethodReturnTypeScoped. -/
theorem matchDiagKind_ne (m : MatchDiag) :
    matchDiagKind m ≠ DiagKind.MethodReturnTypeScoped := by
  cases m <;> simp [matchDiagKind]

/-- C9: when getSubroutine constructs an out-of-block subroutine from a
registered class::method function/task declaration (prototype not pure,
not an interface import), the subroutine is always returned (never
null), its visibility and flags are copied from the prototype (with the
Virtual bit or-ed in when the prototype is virtual), and - when the
return type resolved in the class scope via a simple name and the method
match check passed - the MethodReturnTypeScoped diagnostic is emitted
exactly when the repeated lookup in the definition scope fails to find,
before the out-of-block definition, a type matching the definition
return type. -/
theorem C9_out_of_block_method (env : GetSubrEnv)
    (hii : env.oob.protoFlags.interfaceImport = false)
    (hpure : env.oob.protoFlags.pureM = false)
    (hsyn : env.declSyntaxFound = true)
    (hkind : env.declKindIsFuncOrTask = true) :
    (getSubroutine env).1 = some (mkOOBSubr env.oob) ∧
      (mkOOBSubr env.oob).visibility = env.oob.protoVis ∧
      (mkOOBSubr env.oob).flags.pureM = env.oob.protoFlags.pureM ∧
      (mkOOBSubr env.oob).flags.staticM = env.oob.protoFlags.staticM ∧
      (mkOOBSubr env.oob).flags.interfaceImport =
        env.oob.protoFlags.interfaceImport ∧
      (mkOOBSubr env.oob).flags.virtualM =
        (env.oob.protoFlags.virtualM || env.oob.protoIsVirtual) ∧
      (env.oob.checkMatchOk = true →
        env.oob.retTypeInClassScope = true →
        env.oob.retName ≠ "" →
        (DiagKind.MethodReturnTypeScoped ∈ (getSubroutine env).2 ↔
          retLookupBad env.oob env.index = true)) := by
  have hco : ∀ i, (createOutOfBlock env.oob i).1 = mkOOBSubr env.oob := by
    intro i
    rw [createOutOfBlock]
    by_cases h1 : env.oob.checkMatchOk = false
    · rw [if_pos h1]
    · rw [if_neg h1]
      by_cases h2 : (env.oob.retTypeInClassScope && !(env.oob.retName == "")) = true
      · rw [if_pos h2]
        by_cases h3 : retLookupBad env.oob i = true
        · rw [if_pos h3]
        · rw [if_neg h3]
      · rw [if_neg h2]
  refine ⟨?_, rfl, ?_, ?_, ?_, ?_, ?_⟩
  · rw [getSubroutine, if_neg (by simp [hii]), if_neg (by simp [hpure])]
    rw [if_neg (by simp [hsyn, hkind])]
    by_cases hidx : env.index ≤ env.parentSymIndex
    · rw [if_pos hidx, hco]
    · rw [if_neg hidx, hco]
  · rw [mkOOBSubr, oobFlags]
    cases hv' : env.oob.protoIsVirtual <;> simp_all
  · rw [mkOOBSubr, oobFlags]
    cases hv' : env.oob.protoIsVirtual <;> simp_all
  · rw [mkOOBSubr, oobFlags]
    cases hv' : env.oob.protoIsVirtual <;> simp_all
  · rw [mkOOBSubr, oobFlags]
    cases hv' : env.oob.protoIsVirtual <;> simp_all
  · intro hok hscope hname
    have hdiags : (getSubroutine env).2 =
        (if env.index ≤ env.parentSymIndex then
          DiagKind.MemberDefinitionBeforeClass ::
            (createOutOfBlock env.oob env.index).2
        else (createOutOfBlock env.oob env.index).2) := by
      rw [getSubroutine, if_neg (by simp [hii]), if_neg (by simp [hpure])]
      rw [if_neg (by simp [hsyn, hkind])]
      by_cases hidx : env.index ≤ env.parentSymIndex
      · rw [if_pos hidx, if_pos hidx]
      · rw [if_neg hidx, if_neg hidx]
    have hmem : (DiagKind.MethodReturnTypeScoped ∈ (getSubroutine env).2 ↔
        DiagKind.MethodReturnTypeScoped ∈ (createOutOfBlock env.oob env.index).2) := by
      rw [hdiags]
      by_cases hidx : env.index ≤ env.parentSymIndex
      · rw [if_pos hidx]
        simp
      · rw [if_neg hidx]
    rw [hmem]
    rw [createOutOfBlock, if_neg (by simp [hok]),
      if_pos (by simp [hscope]; exact hname)]
    by_cases hbad : retLookupBad env.oob env.index = true
    · rw [if_pos hbad]
      simp [hbad]
    · rw [if_neg hbad]
      simp only [Bool.not_eq_true] at hbad
      rw [hbad]
      simp only [Bool.false_eq_true, iff_false]
      exact mem_map_argDiagKind _

/-- A concrete environment: protected virtual prototype, a found
function declaration after the class, a class-scoped simple-name return
type whose definition-scope lookup finds a type too late (index 9 > 5). -/
def cEnv : GetSubrEnv :=
  { oob :=
    { protoVis := Visibility.Protected
      protoFlags := ⟨false, false, false, false⟩
      protoIsVirtual := true
      checkMatchOk := true
      matchDiag := MatchDiag.KindMismatch
      retTypeInClassScope := true
      retName := "T"
      defRetType := SlangTypes.exInt
      lookupFound := some ⟨9, true, SlangTypes.exInt⟩
      argDiags := [] }
    declSyntaxFound := true
    declKindIsFuncOrTask := true
    index := 5
    parentSymIndex := 2
    protoStub := ⟨Visibility.Public, ⟨false, false, false, false⟩, false⟩
    ifaceResult := none
    ifaceDiags := [] }

/-- Witness for C9 at the concrete environment. -/
theorem C9_witness :
    (getSubroutine cEnv).1 = some (mkOOBSubr cEnv.oob) ∧
      (mkOOBSubr cEnv.oob).visibility = Visibility.Protected ∧
      (mkOOBSubr cEnv.oob).flags.virtualM = true ∧
      (DiagKind.MethodReturnTypeScoped ∈ (getSubroutine cEnv).2 ↔
        retLookupBad cEnv.oob cEnv.index = true) := by
  have h := C9_out_of_block_method cEnv rfl rfl rfl rfl
  exact ⟨h.1, h.2.1, h.2.2.2.2.2.1, h.2.2.2.2.2.2 rfl rfl (by decide)⟩

end SlangSubr

namespace SlangPrinter

/-- Classification of a source location by the source manager: whether it
is a macro-expansion location and whether it lies in an included file. -/
structure LocC where
  isMacro : Bool
  isIncluded : Bool
deriving DecidableEq, Repr

/-- The trivia kinds that carry plain raw text. -/
inductive TriviaKindL
| Whitespace
| EndOfLine
| LineContinuation
| LineComment
| BlockComment
| DisabledText
deriving DecidableEq, Repr

/-- The syntax-node kinds the printer distinguishes. -/
inductive NodeKindL
| MacroUsage
| IncludeDirective
| CompilationUnit
| OtherKind
deriving DecidableEq, Repr

mutual

/-- A trivia: raw-text trivia, a directive (holding its syntax), skipped
syntax, or skipped tokens; each with an optional explicit location. -/
inductive STrivia
| raw (kind : TriviaKindL) (text : List Char) (eloc : Option LocC)
| dir (stx : SNode) (eloc : Option LocC)
| skippedSyn (stx : SNode) (eloc : Option LocC)
| skippedToks (toks : List SToken) (eloc : Option LocC)

/-- A token: leading trivia, raw text, the missing flag, its location. -/
inductive SToken
| tok (trivia : List STrivia) (rawText : List Char) (missing : Bool) (loc : LocC)

/-- A syntax node: a kind and child slots. -/
inductive SNode
| node (kind : NodeKindL) (children : List SChild)

/-- A child slot: a node, a token, or empty (null child). -/
inductive SChild
| childNode (n : SNode)
| childToken (t : SToken)
| childNull

end

/-- The explicit location of a trivia, if any. -/
def STrivia.eloc : STrivia → Option LocC
| .raw _ _ e => e
| .dir _ e => e
| .skippedSyn _ e => e
| .skippedToks _ e => e

/-- The printer's flag set; `hasSM` records whether a source manager was
supplied. -/
structure Flags where
  includeDirectives : Bool
  includeSkipped : Bool
  includeTrivia : Bool
  includeComments : Bool
  includeMissing : Bool
  squashNewlines : Bool
  expandMacros : Bool
  expandIncludes : Bool
  hasSM : Bool
deriving DecidableEq, Repr

mutual

/-- `SyntaxNode::getFirstToken`: first token slot in document order. -/
def firstTokenN : SNode → Option SToken
| .node _ cs => firstTokenCs cs

def firstTokenCs : List SChild → Option SToken
| [] => none
| .childNode m :: rest =>
  match firstTokenN m with
  | some t => some t
  | none => firstTokenCs rest
| .childToken t :: _ => some t
| .childNull :: rest => firstTokenCs rest

end

/-- The leading trivia of a node's first token (empty when none). -/
def firstTokenTrivia (n : SNode) : List STrivia :=
  match firstTokenN n with
  | some (.tok tv _ _ _) => tv
  | none => []

/-- SyntaxPrinter.cpp lines 178-199 (`shouldPrint(SourceLocation)`). -/
def shouldPrintLoc (f : Flags) (loc : LocC) : Bool :=
  if !f.hasSM then true
  else if loc.isMacro then
    if !f.expandMacros then false
    else if f.expandIncludes then true
    else !loc.isIncluded
  else if loc.isIncluded then f.expandIncludes
  else true

/-- SyntaxPrinter.cpp lines 201-221 (`shouldPrint(const SyntaxNode&)`). -/
def shouldPrintNode (f : Flags) (n : SNode) : Bool :=
  match n with
  | .node kind _ =>
    if !f.hasSM then f.includeDirectives
    else if kind = NodeKindL.MacroUsage then
      if !f.expandMacros then true
      else if f.expandIncludes then false
      else
        match firstTokenN n with
        | some (.tok _ _ _ loc) => loc.isIncluded
        | none => false
    else if kind = NodeKindL.IncludeDirective then !f.expandIncludes
    else f.includeDirectives

/-- SyntaxPrinter.cpp lines 138-176 (`append`), squashing branch: the
scan loop of lines 159-162 always advances to the end of the text, so
after a leading newline sequence nothing of the text remains (advancing
past the end would raise in C++; printing stops either way, modelled as
the empty remainder). -/
def squashAppend (buf text : List Char) : List Char :=
  match text with
  | [] => buf ++ text
  | c :: rest =>
    if c = '\r' ∨ c = '\n' then
      if buf.getLast? ≠ some '\n' then
        buf ++ (if c = '\r' then ['\r'] else []) ++
          (if (if c = '\r' then rest.head? = some '\n' else True) then ['\n'] else [])
      else buf
    else buf ++ text

/-- SyntaxPrinter.cpp lines 138-142: plain append unless squashing. -/
def appendF (f : Flags) (buf text : List Char) : List Char :=
  if !f.squashNewlines then buf ++ text
  else squashAppend buf text

/-- Whether a trivia is a directive / skipped syntax / skipped tokens
(the kinds re-examined at lines 87-89 even under an excluded location). -/
def isDirOrSkipped : STrivia → Bool
| .dir _ _ => true
| .skippedSyn _ _ => true
| .skippedToks _ _ => true
| .raw _ _ _ => false

theorem listSizeOfApp {α : Type} [SizeOf α] (l1 l2 : List α) :
    sizeOf (l1 ++ l2) + 1 = sizeOf l1 + sizeOf l2 := by
  induction l1 with
  | nil => simp; omega
  | cons a l ih => simp at ih ⊢; omega

theorem listSizeOfPos {α : Type} [SizeOf α] (l : List α) : 1 ≤ sizeOf l := by
  cases l <;> simp <;> omega

theorem sizeOfAppOne (l : List STrivia) (a : STrivia) :
    sizeOf (l ++ [a]) = sizeOf l + sizeOf a + 1 := by
  have h := listSizeOfApp l [a]
  simp at h
  omega

theorem triviaSizeOfPos (t : STrivia) : 1 ≤ sizeOf t := by
  cases t <;> simp <;> omega

theorem firstTokenSizeOf :
    ∀ n : Nat,
      (∀ (m : SNode) (t : SToken), sizeOf m ≤ n → firstTokenN m = some t →
        sizeOf t < sizeOf m) ∧
      (∀ (cs : List SChild) (t : SToken), sizeOf cs ≤ n → firstTokenCs cs = some t →
        sizeOf t < sizeOf cs) := by
  intro n
  induction n using Nat.strong_induction_on with
  | _ n ih =>
    constructor
    · intro m t hm hf
      match m with
      | .node k cs =>
        rw [firstTokenN] at hf
        have hcs : sizeOf cs ≤ n - 1 := by
          have := listSizeOfPos cs
          simp at hm; omega
        have hn : 1 ≤ n := by
          have := listSizeOfPos cs
          simp at hm; omega
        have := ((ih (n - 1) (by omega)).2 cs t hcs hf)
        simp; omega
    · intro cs t hcs hf
      match cs with
      | [] => rw [firstTokenCs] at hf; exact Option.noConfusion hf
      | .childNode m :: rest =>
        rw [firstTokenCs] at hf
        have hm1 : 1 ≤ sizeOf m := by cases m; simp; omega
        have hr1 := listSizeOfPos rest
        simp at hcs
        cases hft : firstTokenN m with
        | some t0 =>
          rw [hft] at hf
          have h1 := (ih (n - 1) (by omega)).1 m t0 (by omega) hft
          simp at hf
          subst hf
          simp; omega
        | none =>
          rw [hft] at hf
          have h1 := (ih (n - 1) (by omega)).2 rest t (by omega) hf
          simp; omega
      | .childToken t0 :: rest =>
        rw [firstTokenCs] at hf
        simp at hf
        subst hf
        simp; omega
      | .childNull :: rest =>
        rw [firstTokenCs] at hf
        have hr := listSizeOfPos rest
        simp at hcs
        have h1 := (ih (n - 1) (by omega)).2 rest t (by omega) hf
        simp; omega

theorem firstTokenTriviaSizeOf (n : SNode) :
    sizeOf (firstTokenTrivia n) < sizeOf n := by
  rw [firstTokenTrivia]
  cases hft : firstTokenN n with
  | some t =>
    have h1 := (firstTokenSizeOf (sizeOf n)).1 n t (Nat.le_refl _) hft
    match t with
    | .tok tv raw missing loc =>
      have hr := listSizeOfPos raw
      simp at h1
      simp
      omega
  | none =>
    match n with
    | .node k cs =>
      have := listSizeOfPos cs
      simp
      omega

/-- SyntaxPrinter.cpp line 104-105: append the raw text when the token
location prints and the token is not an omitted missing token. -/
def appendTokenRaw (f : Flags) (raw : List Char) (missing : Bool) (loc : LocC)
    (buf : List Char) : List Char :=
  if shouldPrintLoc f loc && (f.includeMissing || !missing) then appendF f buf raw
  else buf

mutual

/-- SyntaxPrinter.cpp lines 23-60 (`print(Trivia)`): a directive prints
its syntax when `shouldPrint` allows it and otherwise only the leading
trivia of its first token; skipped syntax/tokens and disabled text print
under `includeSkipped`; comments print under `includeComments`; all
other raw trivia is appended. -/
def printTrivia (f : Flags) (t : STrivia) (buf : List Char) : List Char :=
  match t with
  | .dir stx _ =>
    if shouldPrintNode f stx then printNode f stx buf
    else printTriviaList f (firstTokenTrivia stx) buf
  | .skippedSyn stx _ => if f.includeSkipped then printNode f stx buf else buf
  | .skippedToks ts _ => if f.includeSkipped then printTokenList f ts buf else buf
  | .raw kind text _ =>
    match kind with
    | .DisabledText => if f.includeSkipped then appendF f buf text else buf
    | .LineComment => if f.includeComments then appendF f buf text else buf
    | .BlockComment => if f.includeComments then appendF f buf text else buf
    | _ => appendF f buf text
termination_by (sizeOf t, 0)
decreasing_by all_goals
  simp only [Prod.lex_def]
  try simp
  try omega
  try (rename_i stx9 eloc9 h9
       have h10 := firstTokenTriviaSizeOf stx9
       omega)

def printTriviaList (f : Flags) (ts : List STrivia) (buf : List Char) : List Char :=
  match ts with
  | [] => buf
  | t :: rest => printTriviaList f rest (printTrivia f t buf)
termination_by (sizeOf ts, 0)
decreasing_by all_goals
  simp only [Prod.lex_def]
  try simp
  try omega

/-- SyntaxPrinter.cpp lines 62-108 (`print(Token)`): with a source
manager, trivia accumulates in `pending` until one carries an explicit
location, which decides whether the pending run prints; trailing pending
trivia prints unless the token location is excluded; then the raw text
is appended unless the token is excluded or missing. -/
def printToken (f : Flags) (t : SToken) (buf : List Char) : List Char :=
  match t with
  | .tok tv raw missing loc =>
    if f.includeTrivia then
      if f.hasSM then
        appendTokenRaw f raw missing loc
          (printTokenTrivia f (!shouldPrintLoc f loc) [] tv buf)
      else appendTokenRaw f raw missing loc (printTriviaList f tv buf)
    else appendTokenRaw f raw missing loc buf
termination_by (sizeOf t, 0)
decreasing_by all_goals
  simp only [Prod.lex_def]
  try simp
  try (have h10 := listSizeOfPos raw; omega)
  try omega

/-- SyntaxPrinter.cpp lines 74-100: the pending-trivia loop. -/
def printTokenTrivia (f : Flags) (excluded : Bool) (pending rest : List STrivia)
    (buf : List Char) : List Char :=
  match rest with
  | [] => if !excluded then printTriviaList f pending buf else buf
  | tr :: rest2 =>
    match tr.eloc with
    | none => printTokenTrivia f excluded (pending ++ [tr]) rest2 buf
    | some loc =>
      if shouldPrintLoc f loc then
        printTokenTrivia f excluded [] rest2 (printTriviaList f (pending ++ [tr]) buf)
      else if isDirOrSkipped tr then
        printTokenTrivia f excluded [] rest2 (printTrivia f tr buf)
      else printTokenTrivia f excluded [] rest2 buf
termination_by (sizeOf pending + sizeOf rest, sizeOf rest)
decreasing_by all_goals
  simp only [Prod.lex_def]
  try simp [sizeOfAppOne]
  try omega
  try (have h10 := listSizeOfPos pending
       have h11 := listSizeOfPos rest2
       omega)

def printTokenList (f : Flags) (ts : List SToken) (buf : List Char) : List Char :=
  match ts with
  | [] => buf
  | t :: rest => printTokenList f rest (printToken f t buf)
termination_by (sizeOf ts, 0)
decreasing_by all_goals
  simp only [Prod.lex_def]
  try simp
  try omega

/-- SyntaxPrinter.cpp lines 110-119 (`print(const SyntaxNode&)`). -/
def printNode (f : Flags) (n : SNode) (buf : List Char) : List Char :=
  match n with
  | .node _ cs => printChildren f cs buf
termination_by (sizeOf n, 0)
decreasing_by all_goals
  simp only [Prod.lex_def]
  try simp
  try omega

def printChildren (f : Flags) (cs : List SChild) (buf : List Char) : List Char :=
  match cs with
  | [] => buf
  | .childNode m :: rest => printChildren f rest (printNode f m buf)
  | .childToken t :: rest => printChildren f rest (printToken f t buf)
  | .childNull :: rest => printChildren f rest buf
termination_by (sizeOf cs, 0)
decreasing_by all_goals
  simp only [Prod.lex_def]
  try simp
  try omega

end

/-- A parsed tree: root node plus the metadata EOF token (when the
parser recorded one). -/
structure STree where
  root : SNode
  eofTok : Option SToken

/-- Whether the root is a compilation unit (whose EOF token is already a
child of the root). -/
def rootIsCU (tr : STree) : Bool :=
  match tr.root with
  | .node kind _ => kind = NodeKindL.CompilationUnit

/-- SyntaxPrinter.cpp lines 121-126 (`print(const SyntaxTree&)`). -/
def printTree (f : Flags) (tr : STree) (buf : List Char) : List Char :=
  if rootIsCU tr = false then
    match tr.eofTok with
    | some t => printToken f t (printNode f tr.root buf)
    | none => printNode f tr.root buf
  else printNode f tr.root buf

/-- SyntaxPrinter.cpp lines 128-136: `printFile` builds a printer over
the tree source manager with directives, skipped text and trivia
included and newline squashing off; the remaining flags keep their
defaults (comments included; missing tokens, macro and include expansion
off), per the spec (section 6.5). -/
def printFileFlags : Flags :=
  ⟨true, true, true, true, false, false, false, false, true⟩

/-- `SyntaxPrinter::printFile`. -/
def printFile (tr : STree) : List Char := printTree printFileFlags tr []

mutual

/-- Modelled from the spec: the document-order concatenation of raw
token text and trivia of a trivia. -/
def flatTrivia : STrivia → List Char
| .raw _ text _ => text
| .dir stx _ => flatNode stx
| .skippedSyn stx _ => flatNode stx
| .skippedToks ts _ => flatTokens ts

def flatTriviaList : List STrivia → List Char
| [] => []
| t :: rest => flatTrivia t ++ flatTriviaList rest

def flatToken : SToken → List Char
| .tok tv raw _ _ => flatTriviaList tv ++ raw

def flatTokens : List SToken → List Char
| [] => []
| t :: rest => flatToken t ++ flatTokens rest

def flatNode : SNode → List Char
| .node _ cs => flatChildren cs

def flatChildren : List SChild → List Char
| [] => []
| .childNode m :: rest => flatNode m ++ flatChildren rest
| .childToken t :: rest => flatToken t ++ flatChildren rest
| .childNull :: rest => flatChildren rest

end

/-- Modelled from the spec: the whole document content of a tree - all
token raw text and leading trivia in document order (the EOF token
follows the root unless the root compilation unit already contains
it). -/
def flatTree (tr : STree) : List Char :=
  if rootIsCU tr = false then
    match tr.eofTok with
    | some t => flatNode tr.root ++ flatToken t
    | none => flatNode tr.root
  else flatNode tr.root

/-- A location belonging to the main file: not inside a macro expansion
and not inside an included file. -/
def locOK (loc : LocC) : Bool := !loc.isMacro && !loc.isIncluded

/-- An optional explicit trivia location that is absent or file-local. -/
def elocOK : Option LocC → Bool
| none => true
| some l => locOK l

mutual

/-- A trivia all of whose locations are file-local and all of whose
missing tokens have empty raw text. -/
def goodTrivia : STrivia → Bool
| .raw _ _ e => elocOK e
| .dir stx e => elocOK e && goodNode stx
| .skippedSyn stx e => elocOK e && goodNode stx
| .skippedToks ts e => elocOK e && goodTokens ts

def goodTriviaList : List STrivia → Bool
| [] => true
| t :: rest => goodTrivia t && goodTriviaList rest

def goodToken : SToken → Bool
| .tok tv raw missing loc =>
  locOK loc && (!missing || raw == []) && goodTriviaList tv

def goodTokens : List SToken → Bool
| [] => true
| t :: rest => goodToken t && goodTokens rest

def goodNode : SNode → Bool
| .node _ cs => goodChildren cs

def goodChildren : List SChild → Bool
| [] => true
| .childNode m :: rest => goodNode m && goodChildren rest
| .childToken t :: rest => goodToken t && goodChildren rest
| .childNull :: rest => goodChildren rest

end

/-- A tree that is file-local throughout with empty missing tokens. -/
def goodTree (tr : STree) : Bool :=
  goodNode tr.root &&
    (match tr.eofTok with
     | some t => goodToken t
     | none => true)

theorem appendF_pf (buf text : List Char) :
    appendF printFileFlags buf text = buf ++ text := by
  rw [appendF]
  simp [printFileFlags]

theorem shouldPrintLoc_pf (loc : LocC) :
    shouldPrintLoc printFileFlags loc = locOK loc := by
  rcases loc with ⟨m, i⟩
  cases m <;> cases i <;> rfl

theorem shouldPrintNode_pf (n : SNode) :
    shouldPrintNode printFileFlags n = true := by
  match n with
  | .node kind cs =>
    rw [shouldPrintNode]
    cases kind <;> simp [printFileFlags]

theorem goodTrivia_eloc (t : STrivia) (h : goodTrivia t = true) :
    elocOK t.eloc = true := by
  cases t <;>
    simp only [goodTrivia, STrivia.eloc, Bool.and_eq_true] at h ⊢ <;>
    first | exact h | exact h.1

theorem flatTriviaList_append (l1 l2 : List STrivia) :
    flatTriviaList (l1 ++ l2) = flatTriviaList l1 ++ flatTriviaList l2 := by
  induction l1 with
  | nil => simp [flatTriviaList]
  | cons a l ih => simp [flatTriviaList, ih]

theorem goodTriviaList_append (l1 l2 : List STrivia) :
    goodTriviaList (l1 ++ l2) = (goodTriviaList l1 && goodTriviaList l2) := by
  induction l1 with
  | nil => simp [goodTriviaList]
  | cons a l ih => simp [goodTriviaList, ih, Bool.and_assoc]

/-- Under the printFile flags, each printer prints exactly the flat
document content of its good (file-local, missing-empty) argument. -/
theorem printer_flat :
    ∀ n : Nat,
      (∀ (t : STrivia) (buf : List Char), sizeOf t ≤ n → goodTrivia t = true →
        printTrivia printFileFlags t buf = buf ++ flatTrivia t) ∧
      (∀ (ts : List STrivia) (buf : List Char), sizeOf ts ≤ n →
        goodTriviaList ts = true →
        printTriviaList printFileFlags ts buf = buf ++ flatTriviaList ts) ∧
      (∀ (tk : SToken) (buf : List Char), sizeOf tk ≤ n → goodToken tk = true →
        printToken printFileFlags tk buf = buf ++ flatToken tk) ∧
      (∀ (ts : List SToken) (buf : List Char), sizeOf ts ≤ n →
        goodTokens ts = true →
        printTokenList printFileFlags ts buf = buf ++ flatTokens ts) ∧
      (∀ (m : SNode) (buf : List Char), sizeOf m ≤ n → goodNode m = true →
        printNode printFileFlags m buf = buf ++ flatNode m) ∧
      (∀ (cs : List SChild) (buf : List Char), sizeOf cs ≤ n →
        goodChildren cs = true →
        printChildren printFileFlags cs buf = buf ++ flatChildren cs) ∧
      (∀ (pending rest : List STrivia) (buf : List Char),
        sizeOf pending + sizeOf rest ≤ n →
        goodTriviaList pending = true → goodTriviaList rest = true →
        printTokenTrivia printFileFlags false pending rest buf =
          buf ++ flatTriviaList pending ++ flatTriviaList rest) := by
  intro n
  induction n using Nat.strong_induction_on with
  | _ n ih =>
    have htl : ∀ (ts : List STrivia) (buf : List Char), sizeOf ts ≤ n →
        goodTriviaList ts = true →
        printTriviaList printFileFlags ts buf = buf ++ flatTriviaList ts := by
      intro ts buf hsz hg
      match ts with
      | [] => rw [printTriviaList, flatTriviaList]; simp
      | t :: rest =>
        rw [printTriviaList, flatTriviaList]
        rw [goodTriviaList, Bool.and_eq_true] at hg
        have h1 := triviaSizeOfPos t
        have h2 := listSizeOfPos rest
        simp at hsz
        rw [(ih (n - 1) (by omega)).1 t buf (by omega) hg.1]
        rw [(ih (n - 1) (by omega)).2.1 rest _ (by omega) hg.2]
        simp
    have hpend : ∀ (rest pending : List STrivia) (buf : List Char),
        sizeOf pending + sizeOf rest ≤ n →
        goodTriviaList pending = true → goodTriviaList rest = true →
        printTokenTrivia printFileFlags false pending rest buf =
          buf ++ flatTriviaList pending ++ flatTriviaList rest := by
      intro rest
      induction rest with
      | nil =>
        intro pending buf hsz hgp hgr
        rw [printTokenTrivia]
        have h2 := listSizeOfPos (α := STrivia) []
        simp only [Bool.not_false, if_pos]
        rw [htl pending buf (by simp at hsz h2; omega) hgp]
        simp [flatTriviaList]
      | cons tr r2 ihr =>
        intro pending buf hsz hgp hgr
        rw [goodTriviaList, Bool.and_eq_true] at hgr
        have hszp := listSizeOfPos pending
        have hszr := listSizeOfPos r2
        have hsztr := triviaSizeOfPos tr
        simp only [List.cons.sizeOf_spec] at hsz
        rw [printTokenTrivia]
        cases hel : tr.eloc with
        | none =>
          simp only [hel]
          rw [ihr (pending ++ [tr]) buf
            (by rw [sizeOfAppOne]; omega)
            (by rw [goodTriviaList_append, goodTriviaList, goodTriviaList]
                simp [hgp, hgr.1])
            hgr.2]
          rw [flatTriviaList_append, flatTriviaList]
          simp [flatTriviaList]
        | some loc =>
          have hloc : locOK loc = true := by
            have := goodTrivia_eloc tr hgr.1
            rw [hel] at this
            exact this
          simp only [hel, shouldPrintLoc_pf, hloc, if_pos]
          rw [htl (pending ++ [tr]) buf (by rw [sizeOfAppOne]; omega)
            (by rw [goodTriviaList_append, goodTriviaList, goodTriviaList]
                simp [hgp, hgr.1])]
          rw [ihr [] _ (by simp; omega) (by rw [goodTriviaList]) hgr.2]
          rw [flatTriviaList_append, flatTriviaList]
          simp [flatTriviaList]
    have htok : ∀ (tk : SToken) (buf : List Char), sizeOf tk ≤ n →
        goodToken tk = true →
        printToken printFileFlags tk buf = buf ++ flatToken tk := by
      intro tk buf hsz hg
      match tk with
      | .tok tv raw missing loc =>
        rw [goodToken, Bool.and_eq_true, Bool.and_eq_true] at hg
        obtain ⟨⟨hloc, hmiss⟩, htv⟩ := hg
        have hr := listSizeOfPos raw
        have htvp := listSizeOfPos tv
        simp only [SToken.tok.sizeOf_spec] at hsz
        have hf1 : printFileFlags.includeTrivia = true := rfl
        have hf2 : printFileFlags.hasSM = true := rfl
        have hmi : printFileFlags.includeMissing = false := rfl
        rw [printToken]
        rw [if_pos hf1, if_pos hf2]
        rw [shouldPrintLoc_pf, hloc]
        simp only [Bool.not_true]
        rw [hpend tv [] buf (by simp; omega) (by rw [goodTriviaList]) htv]
        rw [appendTokenRaw, shouldPrintLoc_pf, hloc, hmi, flatToken]
        simp only [flatTriviaList, List.nil_append, Bool.true_and, Bool.false_or]
        cases missing with
        | false => simp [appendF_pf]
        | true =>
          simp only [Bool.not_true, Bool.or_false] at hmiss
          have hre : raw = [] := by simpa using hmiss
          subst hre
          simp
    have htokl : ∀ (ts : List SToken) (buf : List Char), sizeOf ts ≤ n →
        goodTokens ts = true →
        printTokenList printFileFlags ts buf = buf ++ flatTokens ts := by
      intro ts buf hsz hg
      match ts with
      | [] => rw [printTokenList, flatTokens]; simp
      | t :: rest =>
        rw [printTokenList, flatTokens]
        rw [goodTokens, Bool.and_eq_true] at hg
        have h2 := listSizeOfPos rest
        simp only [List.cons.sizeOf_spec] at hsz
        rw [htok t buf (by omega) hg.1]
        rw [(ih (n - 1) (by omega)).2.2.2.1 rest _ (by omega) hg.2]
        simp
    have hch : ∀ (cs : List SChild) (buf : List Char), sizeOf cs ≤ n →
        goodChildren cs = true →
        printChildren printFileFlags cs buf = buf ++ flatChildren cs := by
      intro cs buf hsz hg
      match cs with
      | [] => rw [printChildren, flatChildren]; simp
      | .childNode m :: rest =>
        rw [printChildren, flatChildren]
        rw [goodChildren, Bool.and_eq_true] at hg
        have h2 := listSizeOfPos rest
        simp only [List.cons.sizeOf_spec, SChild.childNode.sizeOf_spec] at hsz
        rw [(ih (n - 1) (by omega)).2.2.2.2.1 m buf (by omega) hg.1]
        rw [(ih (n - 1) (by omega)).2.2.2.2.2.1 rest _ (by omega) hg.2]
        simp
      | .childToken t :: rest =>
        rw [printChildren, flatChildren]
        rw [goodChildren, Bool.and_eq_true] at hg
        have h2 := listSizeOfPos rest
        simp only [List.cons.sizeOf_spec, SChild.childToken.sizeOf_spec] at hsz
        rw [htok t buf (by omega) hg.1]
        rw [(ih (n - 1) (by omega)).2.2.2.2.2.1 rest _ (by omega) hg.2]
        simp
      | .childNull :: rest =>
        rw [printChildren, flatChildren]
        rw [goodChildren] at hg
        have h2 := listSizeOfPos rest
        simp only [List.cons.sizeOf_spec] at hsz
        rw [(ih (n - 1) (by omega)).2.2.2.2.2.1 rest _ (by omega) hg]
    have hnode : ∀ (m : SNode) (buf : List Char), sizeOf m ≤ n →
        goodNode m = true →
        printNode printFileFlags m buf = buf ++ flatNode m := by
      intro m buf hsz hg
      match m with
      | .node kind cs =>
        rw [printNode, flatNode]
        rw [goodNode] at hg
        simp only [SNode.node.sizeOf_spec] at hsz
        exact hch cs buf (by omega) hg
    have htrivia : ∀ (t : STrivia) (buf : List Char), sizeOf t ≤ n →
        goodTrivia t = true →
        printTrivia printFileFlags t buf = buf ++ flatTrivia t := by
      have hsk : printFileFlags.includeSkipped = true := rfl
      have hcm : printFileFlags.includeComments = true := rfl
      intro t buf hsz hg
      match t with
      | .dir stx e =>
        rw [goodTrivia, Bool.and_eq_true] at hg
        rw [printTrivia, flatTrivia, shouldPrintNode_pf]
        simp only [if_pos]
        exact hnode stx buf (by simp at hsz; omega) hg.2
      | .skippedSyn stx e =>
        rw [goodTrivia, Bool.and_eq_true] at hg
        rw [printTrivia, flatTrivia]
        rw [if_pos hsk]
        exact hnode stx buf (by simp at hsz; omega) hg.2
      | .skippedToks ts e =>
        rw [goodTrivia, Bool.and_eq_true] at hg
        rw [printTrivia, flatTrivia]
        rw [if_pos hsk]
        exact htokl ts buf (by simp at hsz; omega) hg.2
      | .raw kind text e =>
        cases kind <;>
          simp only [printTrivia, flatTrivia] <;>
          first
            | exact appendF_pf buf text
            | exact (if_pos hsk).trans (appendF_pf buf text)
            | exact (if_pos hcm).trans (appendF_pf buf text)
    exact ⟨htrivia, htl, htok, htokl, hnode, hch, fun p r buf h => hpend r p buf h⟩

/-- C1: printing a parsed tree with SyntaxPrinter::printFile reproduces
the document content byte-exactly: for a tree all of whose locations are
file-local (no macro expansions, no included files - the claim's setting
of parsing a single input string) and whose missing tokens carry empty
raw text, printFile returns exactly the concatenation of all token raw
text and leading trivia in document order; so if that concatenation is
the input S (the spec's lossless-parse guarantee), printFile returns S. -/
theorem C1_print_file_round_trip (tr : STree) (S : List Char)
    (hgood : goodTree tr = true) (hloss : flatTree tr = S) :
    printFile tr = S := by
  subst hloss
  rw [goodTree, Bool.and_eq_true] at hgood
  rw [printFile, printTree, flatTree]
  cases hcu : rootIsCU tr with
  | false =>
    rw [if_pos rfl, if_pos rfl]
    cases he : tr.eofTok with
    | some t =>
      rw [he] at hgood
      simp only [] at hgood ⊢
      rw [(printer_flat (sizeOf tr.root)).2.2.2.2.1 tr.root [] (Nat.le_refl _)
        hgood.1]
      rw [(printer_flat (sizeOf t)).2.2.1 t _ (Nat.le_refl _) hgood.2]
      simp
    | none =>
      rw [(printer_flat (sizeOf tr.root)).2.2.2.2.1 tr.root [] (Nat.le_refl _)
        hgood.1]
      simp
  | true =>
    rw [if_neg (by simp), if_neg (by simp)]
    rw [(printer_flat (sizeOf tr.root)).2.2.2.2.1 tr.root [] (Nat.le_refl _)
      hgood.1]
    simp

/-- A concrete two-token tree with comment, whitespace and directive
trivia and an EOF token. -/
def cTree : STree :=
  ⟨.node .OtherKind
    [.childToken (.tok [.raw .LineComment "// c\n".toList none]
      "module".toList false ⟨false, false⟩),
     .childNull,
     .childNode (.node .OtherKind
       [.childToken (.tok [.raw .Whitespace [' '] none] "m;".toList false
         ⟨false, false⟩)]),
     .childToken (.tok [.raw .EndOfLine ['\n'] (some ⟨false, false⟩)]
       "endmodule".toList false ⟨false, false⟩)],
   some (.tok [.raw .EndOfLine ['\n'] none] [] true ⟨false, false⟩)⟩

/-- Witness for C1 at the concrete tree. -/
theorem C1_witness :
    printFile cTree = "// c\nmodule m;\nendmodule\n".toList :=
  C1_print_file_round_trip cTree "// c\nmodule m;\nendmodule\n".toList
    (by decide) (by decide)

end SlangPrinter
